import Mathlib

set_option maxRecDepth 100000

/-!
Verification of the ask-rockdale repository: a shallow embedding of the
Municode scraper (`scraper.py`) and of the hybrid chunking pipeline
(`start2.py`), together with theorems settling the frozen claims about
their behaviour.

Python strings are modelled as `List Char`; Python `len` is `List.length`;
the regular expressions appearing in the source are hand-compiled into
equivalent explicit matchers (one per pattern, faithful to the backtracking
semantics of `re` on these particular patterns).
-/

/-! ## Basic string utilities (Python semantics) -/

/-- The whitespace characters recognised by Python `str.strip` and by `\s`
in `re` (restricted to the ASCII range, which covers all inputs of the
program's text pipeline). -/
def isWs (c : Char) : Bool :=
  c = ' ' || c = '\t' || c = '\n' || c = '\r' || c = '\x0b' || c = '\x0c'

/-- The sentence-terminating punctuation class `[.!?]` used throughout
`start2.py`. -/
def isPunctEnd (c : Char) : Bool :=
  c = '.' || c = '!' || c = '?'

/-- Python `str.lower`, character by character. -/
def pyLower (l : List Char) : List Char :=
  l.map Char.toLower

/-- Python `str.strip`: drop leading and trailing whitespace. -/
def pyStrip (l : List Char) : List Char :=
  ((l.dropWhile isWs).reverse.dropWhile isWs).reverse

/-- Worker for `collapseWs`; the flag records whether the previous character
was whitespace (so that a whole run is replaced by a single space). -/
def collapseWsAux : Bool → List Char → List Char
  | _, [] => []
  | prevWs, c :: rest =>
    if isWs c then
      if prevWs then collapseWsAux true rest
      else ' ' :: collapseWsAux true rest
    else c :: collapseWsAux false rest

/-- Python `re.sub(r'\s+', ' ', s)`: replace every maximal whitespace run
by a single space. -/
def collapseWs (l : List Char) : List Char :=
  collapseWsAux false l

/-- Worker for `splitWs`; `acc` holds the current token reversed. -/
def splitWsAux : List Char → List Char → List (List Char)
  | acc, [] => if acc.isEmpty then [] else [acc.reverse]
  | acc, c :: rest =>
    if isWs c then
      if acc.isEmpty then splitWsAux [] rest
      else acc.reverse :: splitWsAux [] rest
    else splitWsAux (c :: acc) rest

/-- Split into maximal non-whitespace tokens (Python `str.split()`). -/
def splitWs (l : List Char) : List (List Char) :=
  splitWsAux [] l

/-- Python `sep.join(parts)`. -/
def joinSep (sep : List Char) : List (List Char) → List Char
  | [] => []
  | [x] => x
  | x :: y :: rest => x ++ sep ++ joinSep sep (y :: rest)

/-- Python slice `l[a:b]` (for `0 ≤ a ≤ b`). -/
def pySlice (l : List Char) (a b : Nat) : List Char :=
  (l.drop a).take (b - a)

/-! ## Chunks and the deduplicator (`start2.py`) -/

/-- The metadata attached to a chunk by `AdvancedDocumentProcessor`.
`rule_pattern` stores the index of the matching rule pattern. -/
structure ChunkMeta where
  chunk_type : List Char
  strategy : List Char
  focus_keyword : Option (List Char)
  rule_pattern : Option Nat
deriving DecidableEq, Repr

/-- A langchain `Document` as produced by the chunking strategies: its text
(`page_content`) plus metadata. -/
structure Chunk where
  page_content : List Char
  meta : ChunkMeta
deriving DecidableEq, Repr

/-- The canonical signature computed inside
`AdvancedDocumentProcessor.deduplicate_chunks`:
`re.sub(r'\s+', ' ', chunk.page_content.lower().strip())`. -/
def signature (c : Chunk) : List Char :=
  collapseWs (pyStrip (pyLower c.page_content))

/-- The loop of `deduplicate_chunks`: keep a chunk iff its signature has not
been seen yet (the Python `set` is modelled as a list with membership). -/
def deduplicate_chunks_aux : List Chunk → List (List Char) → List Chunk
  | [], _ => []
  | c :: cs, seen =>
    if signature c ∈ seen then deduplicate_chunks_aux cs seen
    else c :: deduplicate_chunks_aux cs (signature c :: seen)

/-- `AdvancedDocumentProcessor.deduplicate_chunks`. -/
def deduplicate_chunks (chunks : List Chunk) : List Chunk :=
  deduplicate_chunks_aux chunks []

/-! ## Lemmas about the deduplicator -/

theorem dedup_aux_length (l : List Chunk) :
    ∀ seen, (deduplicate_chunks_aux l seen).length ≤ l.length := by
  induction l with
  | nil => intro seen; simp [deduplicate_chunks_aux]
  | cons c cs ih =>
    intro seen
    simp only [deduplicate_chunks_aux]
    split
    · exact (ih seen).trans (Nat.le_succ _)
    · simpa using Nat.succ_le_succ (ih _)

theorem dedup_aux_sublist (l : List Chunk) :
    ∀ seen, List.Sublist (deduplicate_chunks_aux l seen) l := by
  induction l with
  | nil => intro seen; simp [deduplicate_chunks_aux]
  | cons c cs ih =>
    intro seen
    simp only [deduplicate_chunks_aux]
    split
    · exact (ih seen).cons c
    · exact (ih _).cons₂ c

theorem dedup_aux_fresh (l : List Chunk) :
    ∀ seen c, c ∈ deduplicate_chunks_aux l seen → signature c ∉ seen := by
  induction l with
  | nil => intro seen c hc; simp [deduplicate_chunks_aux] at hc
  | cons a as ih =>
    intro seen c hc
    simp only [deduplicate_chunks_aux] at hc
    by_cases h : signature a ∈ seen
    · rw [if_pos h] at hc
      exact ih seen c hc
    · rw [if_neg h] at hc
      rcases List.mem_cons.mp hc with rfl | hc'
      · exact h
      · intro hs
        exact ih _ c hc' (List.mem_cons_of_mem _ hs)

theorem dedup_aux_pairwise (l : List Chunk) :
    ∀ seen, (deduplicate_chunks_aux l seen).Pairwise
      (fun a b => signature a ≠ signature b) := by
  induction l with
  | nil => intro seen; simp [deduplicate_chunks_aux]
  | cons a as ih =>
    intro seen
    simp only [deduplicate_chunks_aux]
    split
    · exact ih seen
    · refine List.Pairwise.cons ?_ (ih _)
      intro b hb heq
      exact dedup_aux_fresh as _ b hb (heq ▸ List.mem_cons_self _ _)

theorem dedup_aux_fixed (l : List Chunk) :
    ∀ seen, l.Pairwise (fun a b => signature a ≠ signature b) →
      (∀ c ∈ l, signature c ∉ seen) → deduplicate_chunks_aux l seen = l := by
  induction l with
  | nil => intro seen _ _; simp [deduplicate_chunks_aux]
  | cons a as ih =>
    intro seen hp hf
    have ha : signature a ∉ seen := hf a (List.mem_cons_self _ _)
    simp only [deduplicate_chunks_aux, if_neg ha]
    congr 1
    apply ih _ (List.Pairwise.of_cons hp)
    intro c hc hmem
    rcases List.mem_cons.mp hmem with h1 | h2
    · exact (List.pairwise_cons.mp hp).1 c hc h1.symm
    · exact hf c (List.mem_cons_of_mem _ hc) h2

theorem dedup_aux_find (l : List Chunk) :
    ∀ seen d, d ∈ deduplicate_chunks_aux l seen →
      signature d ∉ seen ∧
        l.find? (fun x => signature x == signature d) = some d := by
  induction l with
  | nil => intro seen d hd; simp [deduplicate_chunks_aux] at hd
  | cons a as ih =>
    intro seen d hd
    simp only [deduplicate_chunks_aux] at hd
    by_cases h : signature a ∈ seen
    · rw [if_pos h] at hd
      obtain ⟨hns, hfind⟩ := ih seen d hd
      refine ⟨hns, ?_⟩
      rw [List.find?_cons_of_neg _ ?_]
      · exact hfind
      · simp only [beq_iff_eq]
        intro he
        exact hns (he ▸ h)
    · rw [if_neg h] at hd
      rcases List.mem_cons.mp hd with rfl | hd'
      · refine ⟨h, ?_⟩
        rw [List.find?_cons_of_pos]
        simp
      · obtain ⟨hns, hfind⟩ := ih _ d hd'
        have hne : signature a ≠ signature d := fun he =>
          hns (he ▸ List.mem_cons_self _ _)
        refine ⟨fun hs => hns (List.mem_cons_of_mem _ hs), ?_⟩
        rw [List.find?_cons_of_neg _ ?_]
        · exact hfind
        · simp [hne]

theorem dedup_aux_repr (l : List Chunk) :
    ∀ seen c, c ∈ l → signature c ∈ seen ∨
      ∃ d ∈ deduplicate_chunks_aux l seen, signature d = signature c := by
  induction l with
  | nil => intro seen c hc; simp at hc
  | cons a as ih =>
    intro seen c hc
    simp only [deduplicate_chunks_aux]
    by_cases h : signature a ∈ seen
    · rw [if_pos h]
      rcases List.mem_cons.mp hc with rfl | hc'
      · exact Or.inl h
      · exact ih seen c hc'
    · rw [if_neg h]
      rcases List.mem_cons.mp hc with h1 | hc'
      · exact Or.inr ⟨a, List.mem_cons_self _ _, by rw [h1]⟩
      · rcases ih (signature a :: seen) c hc' with hs | ⟨d, hd, he⟩
        · rcases List.mem_cons.mp hs with h1 | h2
          · exact Or.inr ⟨a, List.mem_cons_self _ _, h1.symm⟩
          · exact Or.inl h2
        · exact Or.inr ⟨d, List.mem_cons_of_mem _ hd, he⟩

theorem dedup_aux_drop (xs : List Chunk) :
    ∀ seen (c : Chunk) ys,
      (signature c ∈ seen ∨ ∃ d ∈ xs, signature d = signature c) →
      deduplicate_chunks_aux (xs ++ c :: ys) seen =
        deduplicate_chunks_aux (xs ++ ys) seen := by
  induction xs with
  | nil =>
    intro seen c ys h
    rcases h with h | ⟨d, hd, _⟩
    · simp only [List.nil_append, deduplicate_chunks_aux, if_pos h]
    · exact absurd hd (List.not_mem_nil d)
  | cons a as ih =>
    intro seen c ys h
    simp only [List.cons_append, deduplicate_chunks_aux]
    by_cases ha : signature a ∈ seen
    · rw [if_pos ha, if_pos ha]
      apply ih
      rcases h with h | ⟨d, hd, he⟩
      · exact Or.inl h
      · rcases List.mem_cons.mp hd with rfl | hd'
        · exact Or.inl (he ▸ ha)
        · exact Or.inr ⟨d, hd', he⟩
    · rw [if_neg ha, if_neg ha]
      congr 1
      apply ih
      rcases h with h | ⟨d, hd, he⟩
      · exact Or.inl (List.mem_cons_of_mem _ h)
      · rcases List.mem_cons.mp hd with rfl | hd'
        · exact Or.inl (he ▸ List.mem_cons_self _ _)
        · exact Or.inr ⟨d, hd', he⟩

/-! ## Concrete chunks used in witnesses -/

/-- Metadata of a keyword-focused chunk with focus keyword "dog". -/
def kwMetaDog : ChunkMeta :=
  ⟨("keyword_focused".data), ("specific_query".data), some ("dog".data), none⟩

/-- Metadata of a rule-based chunk (first rule pattern). -/
def qaMetaRule : ChunkMeta :=
  ⟨("qa_style".data), ("rule_based".data), none, some 0⟩

/-- A chunk whose text has extra whitespace and upper-case letters. -/
def chunkDup1 : Chunk := ⟨("Dogs  MUST be leashed. ".data), kwMetaDog⟩

/-- A chunk canonically equal to `chunkDup1` but with different metadata. -/
def chunkDup2 : Chunk := ⟨("dogs must be leashed.".data), qaMetaRule⟩

/-- A chunk with a different canonical signature. -/
def chunkOther : Chunk := ⟨("Another passage entirely.".data), kwMetaDog⟩

/-- C3: for every passage sequence P, dedupe(dedupe(P)) equals dedupe(P), the
length of dedupe(P) is at most the length of P, and dedupe is
order-preserving (its output is a sublist of P), keeps pairwise-distinct
canonical signatures, keeps exactly the first occurrence of each signature
(every kept chunk is what `find?` locates for its signature), and loses no
signature. -/
theorem claim_C3_dedupe_idempotent (P : List Chunk) :
    deduplicate_chunks (deduplicate_chunks P) = deduplicate_chunks P ∧
    (deduplicate_chunks P).length ≤ P.length ∧
    List.Sublist (deduplicate_chunks P) P ∧
    (deduplicate_chunks P).Pairwise (fun a b => signature a ≠ signature b) ∧
    (∀ d ∈ deduplicate_chunks P,
      P.find? (fun x => signature x == signature d) = some d) ∧
    (∀ c ∈ P, ∃ d ∈ deduplicate_chunks P, signature d = signature c) := by
  refine ⟨?_, dedup_aux_length P [], dedup_aux_sublist P [],
    dedup_aux_pairwise P [], ?_, ?_⟩
  · exact dedup_aux_fixed _ [] (dedup_aux_pairwise P [])
      (fun c _ => List.not_mem_nil _)
  · intro d hd
    exact (dedup_aux_find P [] d hd).2
  · intro c hc
    rcases dedup_aux_repr P [] c hc with hs | h
    · exact absurd hs (List.not_mem_nil _)
    · exact h

/-- Witness for C3 at a concrete passage sequence containing a duplicate. -/
theorem claim_C3_dedupe_idempotent_witness :
    deduplicate_chunks (deduplicate_chunks [chunkDup1, chunkOther, chunkDup2]) =
      deduplicate_chunks [chunkDup1, chunkOther, chunkDup2] ∧
    [chunkDup1, chunkOther, chunkDup2].find?
      (fun x => signature x == signature chunkDup1) = some chunkDup1 :=
  ⟨(claim_C3_dedupe_idempotent [chunkDup1, chunkOther, chunkDup2]).1,
   (claim_C3_dedupe_idempotent [chunkDup1, chunkOther, chunkDup2]).2.2.2.2.1
     chunkDup1 (by decide)⟩

/-- C10: deduplication compares only the canonical text: a chunk whose
signature already occurred earlier is dropped no matter what its metadata
is, and in particular of two canonically identical chunks with different
metadata only the first survives, keeping its own metadata. -/
theorem claim_C10_dedupe_text_only :
    (∀ (xs : List Chunk) (c : Chunk) (ys : List Chunk),
        (∃ d ∈ xs, signature d = signature c) →
        deduplicate_chunks (xs ++ c :: ys) = deduplicate_chunks (xs ++ ys)) ∧
    (∀ (c₁ c₂ : Chunk) (rest : List Chunk), signature c₁ = signature c₂ →
        deduplicate_chunks (c₁ :: c₂ :: rest) = deduplicate_chunks (c₁ :: rest)) := by
  constructor
  · intro xs c ys h
    exact dedup_aux_drop xs [] c ys (Or.inr h)
  · intro c₁ c₂ rest h
    have h2 := dedup_aux_drop [c₁] [] c₂ rest
      (Or.inr ⟨c₁, List.mem_cons_self _ _, h⟩)
    simpa using h2

/-- Witness for C10: two canonically identical chunks carrying different
strategy metadata; only the first (with its metadata) survives. -/
theorem claim_C10_dedupe_text_only_witness :
    signature chunkDup1 = signature chunkDup2 ∧
    chunkDup1.meta ≠ chunkDup2.meta ∧
    deduplicate_chunks [chunkDup1, chunkDup2] = deduplicate_chunks [chunkDup1] ∧
    deduplicate_chunks [chunkDup1, chunkDup2] = [chunkDup1] :=
  ⟨by decide, by decide,
   claim_C10_dedupe_text_only.2 chunkDup1 chunkDup2 [] (by decide),
   by decide⟩

/-! ## Canonicalization: the signature as whitespace-separated words -/

/-- Negation of `isWs`, used as a `takeWhile` predicate. -/
def notWs (c : Char) : Bool := !(isWs c)

/-- Strip trailing whitespace only. -/
def stripEnd (l : List Char) : List Char := (l.reverse.dropWhile isWs).reverse

/-- A list that is empty or starts with a non-whitespace character. -/
def HeadNotWs (t : List Char) : Prop :=
  ∀ c rest, t = c :: rest → isWs c = false

theorem pyStrip_eq (l : List Char) :
    pyStrip l = stripEnd (l.dropWhile isWs) := rfl

theorem splitWsAux_ws_skip (r : List Char) :
    ∀ rest, (∀ x ∈ r, isWs x = true) →
      splitWsAux [] (r ++ rest) = splitWsAux [] rest := by
  induction r with
  | nil => intro rest _; rfl
  | cons c cs ih =>
    intro rest h
    have hc : isWs c = true := h c (List.mem_cons_self _ _)
    simp only [List.cons_append, splitWsAux, hc, if_true, List.isEmpty_nil]
    exact ih rest (fun x hx => h x (List.mem_cons_of_mem _ hx))

theorem splitWs_dropWhile (l : List Char) :
    splitWs l = splitWs (l.dropWhile isWs) := by
  show splitWsAux [] l = splitWsAux [] (l.dropWhile isWs)
  conv_lhs => rw [← List.takeWhile_append_dropWhile isWs l]
  exact splitWsAux_ws_skip _ _ (fun x hx => List.mem_takeWhile_imp hx)

theorem splitWsAux_allWs_nil (r : List Char) (h : ∀ x ∈ r, isWs x = true) :
    splitWsAux [] r = [] := by
  have h2 := splitWsAux_ws_skip r [] h
  simpa [splitWsAux] using h2

theorem splitWsAux_token (w : List Char) :
    ∀ acc rest, (∀ x ∈ w, isWs x = false) →
      splitWsAux acc (w ++ rest) = splitWsAux (w.reverse ++ acc) rest := by
  induction w with
  | nil => intro acc rest _; simp
  | cons c cs ih =>
    intro acc rest h
    have hc : isWs c = false := h c (List.mem_cons_self _ _)
    simp only [List.cons_append, splitWsAux, hc, Bool.false_eq_true, if_false,
      List.append_eq]
    rw [ih (c :: acc) rest (fun x hx => h x (List.mem_cons_of_mem _ hx))]
    simp

theorem splitWsAux_allWs_acc (r : List Char) :
    ∀ acc, (∀ x ∈ r, isWs x = true) → acc ≠ [] →
      splitWsAux acc r = [acc.reverse] := by
  induction r with
  | nil =>
    intro acc _ hacc
    simp [splitWsAux, List.isEmpty_iff, hacc]
  | cons c cs ih =>
    intro acc h hacc
    have hc : isWs c = true := h c (List.mem_cons_self _ _)
    simp only [splitWsAux, hc, if_true, List.isEmpty_iff, hacc, if_neg hacc,
      if_false]
    rw [splitWsAux_allWs_nil cs (fun x hx => h x (List.mem_cons_of_mem _ hx))]

theorem splitWsAux_ws_sep (rw₁ : List Char) (acc r₂ : List Char)
    (hne : rw₁ ≠ []) (hws : ∀ x ∈ rw₁, isWs x = true) (hacc : acc ≠ []) :
    splitWsAux acc (rw₁ ++ r₂) = acc.reverse :: splitWsAux [] r₂ := by
  cases rw₁ with
  | nil => exact absurd rfl hne
  | cons e rw' =>
    have he : isWs e = true := hws e (List.mem_cons_self _ _)
    simp only [List.cons_append, splitWsAux, he, if_true, List.isEmpty_iff,
      hacc, if_neg hacc, if_false, List.append_eq]
    rw [splitWsAux_ws_skip rw' r₂ (fun x hx => hws x (List.mem_cons_of_mem _ hx))]

theorem splitWsAux_acc_ne_nil (t : List Char) :
    ∀ acc, acc ≠ [] → splitWsAux acc t ≠ [] := by
  induction t with
  | nil =>
    intro acc h
    simp [splitWsAux, List.isEmpty_iff, h]
  | cons c cs ih =>
    intro acc h
    by_cases hc : isWs c
    · simp [splitWsAux, hc, List.isEmpty_iff, h]
    · simp only [splitWsAux, hc, Bool.false_eq_true, if_false]
      exact ih (c :: acc) (List.cons_ne_nil c acc)

theorem splitWs_ne_nil_of_headNotWs (c : Char) (rest : List Char)
    (hc : isWs c = false) : splitWs (c :: rest) ≠ [] := by
  show splitWsAux [] (c :: rest) ≠ []
  simp only [splitWsAux, hc, Bool.false_eq_true, if_false]
  exact splitWsAux_acc_ne_nil rest [c] (List.cons_ne_nil c [])

theorem collapseAux_notWs_run (w : List Char) :
    ∀ t, (∀ x ∈ w, isWs x = false) →
      collapseWsAux false (w ++ t) = w ++ collapseWsAux false t := by
  induction w with
  | nil => intro t _; rfl
  | cons c cs ih =>
    intro t h
    have hc : isWs c = false := h c (List.mem_cons_self _ _)
    simp only [List.cons_append, collapseWsAux, hc, Bool.false_eq_true, if_false,
      List.append_eq]
    rw [ih t (fun x hx => h x (List.mem_cons_of_mem _ hx))]

theorem collapseAux_all_notWs (w : List Char) (h : ∀ x ∈ w, isWs x = false) :
    collapseWsAux false w = w := by
  have h2 := collapseAux_notWs_run w [] h
  simpa [collapseWsAux] using h2

theorem collapseAux_true_headNotWs (t : List Char) (h : HeadNotWs t) :
    collapseWsAux true t = collapseWsAux false t := by
  cases t with
  | nil => rfl
  | cons c rest =>
    have hc : isWs c = false := h c rest rfl
    simp only [collapseWsAux, hc, Bool.false_eq_true, if_false]

theorem collapseAux_true_ws_run (cs : List Char) :
    ∀ t, (∀ x ∈ cs, isWs x = true) → HeadNotWs t →
      collapseWsAux true (cs ++ t) = collapseWsAux false t := by
  induction cs with
  | nil => intro t _ ht; exact collapseAux_true_headNotWs t ht
  | cons c cs' ih =>
    intro t h ht
    have hc : isWs c = true := h c (List.mem_cons_self _ _)
    simp only [List.cons_append, collapseWsAux, hc, if_true]
    exact ih t (fun x hx => h x (List.mem_cons_of_mem _ hx)) ht

theorem collapseAux_ws_run (rw₁ : List Char) (t : List Char)
    (hne : rw₁ ≠ []) (hws : ∀ x ∈ rw₁, isWs x = true) (ht : HeadNotWs t) :
    collapseWsAux false (rw₁ ++ t) = ' ' :: collapseWsAux false t := by
  cases rw₁ with
  | nil => exact absurd rfl hne
  | cons c cs =>
    have hc : isWs c = true := hws c (List.mem_cons_self _ _)
    simp only [List.cons_append, collapseWsAux, hc, if_true, Bool.false_eq_true,
      if_false, List.append_eq]
    rw [collapseAux_true_ws_run cs t (fun x hx => hws x (List.mem_cons_of_mem _ hx)) ht]

theorem stripEnd_eq_nil_iff (l : List Char) :
    stripEnd l = [] ↔ ∀ x ∈ l, isWs x = true := by
  unfold stripEnd
  rw [List.reverse_eq_nil_iff, List.dropWhile_eq_nil_iff]
  constructor
  · intro h x hx
    exact h x (List.mem_reverse.mpr hx)
  · intro h x hx
    exact h x (List.mem_reverse.mp hx)

theorem stripEnd_append (a b : List Char) (h : stripEnd b ≠ []) :
    stripEnd (a ++ b) = a ++ stripEnd b := by
  have hb : (List.dropWhile isWs b.reverse).isEmpty = false := by
    rw [List.isEmpty_eq_false]
    intro hnil
    apply h
    unfold stripEnd
    rw [hnil, List.reverse_nil]
  unfold stripEnd
  rw [List.reverse_append, List.dropWhile_append, hb]
  simp

theorem stripEnd_prefix (l : List Char) : stripEnd l <+: l := by
  have hs : (stripEnd l).reverse <:+ l.reverse := by
    unfold stripEnd
    rw [List.reverse_reverse]
    exact List.dropWhile_suffix isWs
  exact List.reverse_suffix.mp hs

theorem stripEnd_head (c : Char) (rest : List Char)
    (h : stripEnd (c :: rest) ≠ []) : ∃ t, stripEnd (c :: rest) = c :: t := by
  obtain ⟨s, hs⟩ := stripEnd_prefix (c :: rest)
  cases hse : stripEnd (c :: rest) with
  | nil => exact absurd hse h
  | cons d t =>
    rw [hse] at hs
    rw [List.cons_append] at hs
    injection hs with h1 _
    exact ⟨t, by rw [h1]⟩

theorem stripEnd_all_notWs (w : List Char) (h : ∀ x ∈ w, isWs x = false) :
    stripEnd w = w := by
  unfold stripEnd
  rw [List.dropWhile_eq_self_iff.mpr, List.reverse_reverse]
  intro hne
  rw [h (w.reverse.get ⟨0, hne⟩) (List.mem_reverse.mp (List.get_mem _ _ hne))]
  simp

theorem stripEnd_ws_trailing (w r : List Char) (hw : ∀ x ∈ w, isWs x = false)
    (hr : ∀ x ∈ r, isWs x = true) : stripEnd (w ++ r) = w := by
  unfold stripEnd
  rw [List.reverse_append, List.dropWhile_append]
  have h1 : (List.dropWhile isWs r.reverse).isEmpty = true := by
    rw [List.isEmpty_iff, List.dropWhile_eq_nil_iff]
    intro x hx
    exact hr x (List.mem_reverse.mp hx)
  rw [h1]
  simp only [if_true]
  have h2 := stripEnd_all_notWs w hw
  unfold stripEnd at h2
  rw [← List.reverse_inj, List.reverse_reverse] at h2
  rw [h2, List.reverse_reverse]

theorem dropWhile_cons_head_false {p : Char → Bool} (l : List Char) (d : Char)
    (t : List Char) (h : List.dropWhile p l = d :: t) : p d = false := by
  induction l with
  | nil => simp at h
  | cons a as ih =>
    rw [List.dropWhile_cons] at h
    by_cases ha : p a
    · rw [if_pos ha] at h
      exact ih h
    · rw [if_neg ha] at h
      injection h with h1 _
      rw [← h1]
      exact Bool.eq_false_iff.mpr ha

theorem bridge_allWs_tail (t r : List Char) (hT_ne : t ≠ [])
    (hT_all : ∀ x ∈ t, isWs x = false) (hR_all : ∀ x ∈ r, isWs x = true) :
    collapseWsAux false (stripEnd (t ++ r)) = joinSep [' '] (splitWs (t ++ r)) := by
  rw [stripEnd_ws_trailing t r hT_all hR_all]
  rw [collapseAux_all_notWs t hT_all]
  have h2 : splitWs (t ++ r) = [t] := by
    show splitWsAux [] (t ++ r) = [t]
    rw [splitWsAux_token t [] r hT_all,
        splitWsAux_allWs_acc r _ hR_all (by simp [hT_ne])]
    simp
  rw [h2]
  rfl

theorem bridge_step (t rw₁ r₂ : List Char)
    (hT_ne : t ≠ []) (hT_all : ∀ x ∈ t, isWs x = false)
    (hRW_ne : rw₁ ≠ []) (hRW_all : ∀ x ∈ rw₁, isWs x = true)
    (d₂ : Char) (t₂ : List Char) (hR2 : r₂ = d₂ :: t₂) (hd₂ : isWs d₂ = false)
    (hIH : collapseWsAux false (stripEnd r₂) = joinSep [' '] (splitWs r₂)) :
    collapseWsAux false (stripEnd (t ++ (rw₁ ++ r₂))) =
      joinSep [' '] (splitWs (t ++ (rw₁ ++ r₂))) := by
  have hstrip_ne : stripEnd r₂ ≠ [] := by
    rw [Ne, stripEnd_eq_nil_iff]
    intro hall
    have h3 := hall d₂ (by rw [hR2]; exact List.mem_cons_self _ _)
    rw [hd₂] at h3
    exact Bool.false_ne_true h3
  have hhead_strip : HeadNotWs (stripEnd r₂) := by
    intro e s hes
    obtain ⟨t₃, ht₃⟩ := stripEnd_head d₂ t₂ (by rw [← hR2]; exact hstrip_ne)
    rw [hR2, ht₃] at hes
    injection hes with h1 _
    rw [← h1]
    exact hd₂
  have hA : stripEnd (rw₁ ++ r₂) = rw₁ ++ stripEnd r₂ :=
    stripEnd_append rw₁ r₂ hstrip_ne
  have hB : stripEnd (rw₁ ++ r₂) ≠ [] := by
    rw [hA]
    intro hnil
    rcases List.append_eq_nil.mp hnil with ⟨_, h4⟩
    exact hstrip_ne h4
  have h1 : stripEnd (t ++ (rw₁ ++ r₂)) = t ++ (rw₁ ++ stripEnd r₂) := by
    rw [stripEnd_append t (rw₁ ++ r₂) hB, hA]
  rw [h1]
  rw [collapseAux_notWs_run t (rw₁ ++ stripEnd r₂) hT_all]
  rw [collapseAux_ws_run rw₁ (stripEnd r₂) hRW_ne hRW_all hhead_strip]
  rw [hIH]
  have h2 : splitWs (t ++ (rw₁ ++ r₂)) = t :: splitWs r₂ := by
    show splitWsAux [] (t ++ (rw₁ ++ r₂)) = t :: splitWs r₂
    rw [splitWsAux_token t [] (rw₁ ++ r₂) hT_all,
        splitWsAux_ws_sep rw₁ _ r₂ hRW_ne hRW_all (by simp [hT_ne])]
    simp [splitWs]
  rw [h2]
  obtain ⟨y, ys, hY⟩ : ∃ y ys, splitWs r₂ = y :: ys := by
    have h5 : splitWs r₂ ≠ [] := by
      rw [hR2]
      exact splitWs_ne_nil_of_headNotWs d₂ t₂ hd₂
    cases hfoo : splitWs r₂ with
    | nil => exact absurd hfoo h5
    | cons y ys => exact ⟨y, ys, rfl⟩
  rw [hY]
  show t ++ ' ' :: joinSep [' '] (y :: ys) = t ++ [' '] ++ joinSep [' '] (y :: ys)
  simp

theorem collapse_stripEnd_eq_join (n : Nat) :
    ∀ v : List Char, v.length ≤ n → HeadNotWs v →
      collapseWsAux false (stripEnd v) = joinSep [' '] (splitWs v) := by
  induction n with
  | zero =>
    intro v hv _
    have hnil : v = [] := List.eq_nil_of_length_eq_zero (Nat.le_zero.mp hv)
    subst hnil
    rfl
  | succ n ih =>
    intro v hv hhead
    cases v with
    | nil => rfl
    | cons c rest =>
      have hc : isWs c = false := hhead c rest rfl
      have hsplit := List.takeWhile_append_dropWhile notWs (c :: rest)
      have hw_all : ∀ x ∈ List.takeWhile notWs (c :: rest), isWs x = false := by
        intro x hx
        have h2 := List.mem_takeWhile_imp hx
        simpa [notWs] using h2
      have hw_ne : List.takeWhile notWs (c :: rest) ≠ [] := by
        rw [List.takeWhile_cons]
        simp [notWs, hc]
      by_cases hrws : ∀ x ∈ List.dropWhile notWs (c :: rest), isWs x = true
      · conv_lhs => rw [← hsplit]
        conv_rhs => rw [← hsplit]
        exact bridge_allWs_tail _ _ hw_ne hw_all hrws
      · push_neg at hrws
        obtain ⟨x₀, hx₀mem, hx₀ne⟩ := hrws
        have hx₀ : isWs x₀ = false := by
          cases hxx : isWs x₀
          · rfl
          · exact absurd hxx hx₀ne
        have hr2_ne : List.dropWhile isWs (List.dropWhile notWs (c :: rest)) ≠ [] := by
          intro hnil
          rw [List.dropWhile_eq_nil_iff] at hnil
          rw [hnil x₀ hx₀mem] at hx₀
          exact Bool.true_eq_false ▸ (Bool.false_ne_true hx₀.symm)
        obtain ⟨d₂, t₂, hR2⟩ : ∃ d t,
            List.dropWhile isWs (List.dropWhile notWs (c :: rest)) = d :: t := by
          cases hfoo : List.dropWhile isWs (List.dropWhile notWs (c :: rest)) with
          | nil => exact absurd hfoo hr2_ne
          | cons d tl => exact ⟨d, tl, rfl⟩
        have hd₂ : isWs d₂ = false :=
          dropWhile_cons_head_false _ d₂ t₂ hR2
        have hrw_ne : List.takeWhile isWs (List.dropWhile notWs (c :: rest)) ≠ [] := by
          cases hD : List.dropWhile notWs (c :: rest) with
          | nil =>
            rw [hD] at hR2
            simp at hR2
          | cons d tl =>
            have hd : notWs d = false := dropWhile_cons_head_false _ d tl hD
            have hdw : isWs d = true := by
              simpa [notWs] using hd
            rw [List.takeWhile_cons, hdw]
            simp
        have hrw_all : ∀ x ∈ List.takeWhile isWs (List.dropWhile notWs (c :: rest)),
            isWs x = true := fun x hx => List.mem_takeWhile_imp hx
        have hDsplit := List.takeWhile_append_dropWhile isWs
          (List.dropWhile notWs (c :: rest))
        have hlen : (List.dropWhile isWs (List.dropWhile notWs (c :: rest))).length ≤ n := by
          have h4 : (c :: rest).length =
              (List.takeWhile notWs (c :: rest)).length +
              ((List.takeWhile isWs (List.dropWhile notWs (c :: rest))).length +
               (List.dropWhile isWs (List.dropWhile notWs (c :: rest))).length) := by
            conv_lhs => rw [← hsplit, ← hDsplit]
            rw [List.length_append, List.length_append]
          have hT1 : 0 < (List.takeWhile notWs (c :: rest)).length :=
            List.length_pos.mpr hw_ne
          have hRW1 : 0 < (List.takeWhile isWs (List.dropWhile notWs (c :: rest))).length :=
            List.length_pos.mpr hrw_ne
          simp only [List.length_cons] at hv h4
          omega
        have hhead₂ : HeadNotWs (List.dropWhile isWs (List.dropWhile notWs (c :: rest))) := by
          intro e s hes
          rw [hR2] at hes
          injection hes with h1 _
          rw [← h1]
          exact hd₂
        have hIH := ih _ hlen hhead₂
        conv_lhs => rw [← hsplit]
        conv_rhs => rw [← hsplit]
        conv_lhs => rw [← hDsplit]
        conv_rhs => rw [← hDsplit]
        exact bridge_step _ _ _ hw_ne hw_all hrw_ne hrw_all d₂ t₂ hR2 hd₂ hIH

/-- The word-level normal form of a text: its maximal non-whitespace tokens,
lower-cased. Two texts differ only in letter case and in the lengths of
whitespace runs (including presence of leading/trailing whitespace) exactly
when they have the same `wordsLower`. -/
def wordsLower (l : List Char) : List (List Char) :=
  splitWs (pyLower l)

theorem collapse_strip_eq_join_words (u : List Char) :
    collapseWs (pyStrip u) = joinSep [' '] (splitWs u) := by
  have hhead : HeadNotWs (u.dropWhile isWs) := fun e s hes =>
    dropWhile_cons_head_false u e s hes
  rw [pyStrip_eq]
  show collapseWsAux false (stripEnd (u.dropWhile isWs)) = _
  rw [collapse_stripEnd_eq_join (u.dropWhile isWs).length _ le_rfl hhead,
      ← splitWs_dropWhile]

/-- C6: two passages that differ only in letter case and in the lengths of
whitespace runs (formalised: their lower-cased whitespace-separated word
lists agree) get byte-identical canonical signatures, and deduplication
keeps only the first of the two. -/
theorem claim_C6_canonicalization_equiv :
    (∀ c₁ c₂ : Chunk,
        wordsLower c₁.page_content = wordsLower c₂.page_content →
        signature c₁ = signature c₂) ∧
    (∀ c₁ c₂ : Chunk,
        wordsLower c₁.page_content = wordsLower c₂.page_content →
        deduplicate_chunks [c₁, c₂] = [c₁]) := by
  have hsig : ∀ c₁ c₂ : Chunk,
      wordsLower c₁.page_content = wordsLower c₂.page_content →
      signature c₁ = signature c₂ := by
    intro c₁ c₂ h
    show collapseWs (pyStrip (pyLower c₁.page_content)) =
      collapseWs (pyStrip (pyLower c₂.page_content))
    rw [collapse_strip_eq_join_words, collapse_strip_eq_join_words]
    exact congrArg (joinSep [' ']) h
  refine ⟨hsig, ?_⟩
  intro c₁ c₂ h
  have he := hsig c₁ c₂ h
  show deduplicate_chunks_aux [c₁, c₂] [] = [c₁]
  simp [deduplicate_chunks_aux, he.symm]

/-- A passage with extra whitespace (also leading/trailing) and different
letter case. -/
def chunkWs1 : Chunk := ⟨("  Hello   WORLD ".data), kwMetaDog⟩

/-- The canonical-form twin of `chunkWs1` with different metadata. -/
def chunkWs2 : Chunk := ⟨("hello world".data), qaMetaRule⟩

/-- Witness for C6 at a concrete pair of passages. -/
theorem claim_C6_canonicalization_equiv_witness :
    wordsLower chunkWs1.page_content = wordsLower chunkWs2.page_content ∧
    signature chunkWs1 = signature chunkWs2 ∧
    deduplicate_chunks [chunkWs1, chunkWs2] = [chunkWs1] :=
  ⟨by decide,
   claim_C6_canonicalization_equiv.1 chunkWs1 chunkWs2 (by decide),
   claim_C6_canonicalization_equiv.2 chunkWs1 chunkWs2 (by decide)⟩

/-! ## Sentence splitting (`re.split(r'(?<=[.!?])\s+', content)`) -/

/-- Lookbehind test: the previously consumed character (head of the reversed
accumulator) is sentence punctuation. -/
def prevPunct : List Char → Bool
  | p :: _ => isPunctEnd p
  | [] => false

/-- Worker for `sentSplit`. `skipping` is true while consuming the
whitespace run of a separator match (the accumulator is empty then); in
building mode the accumulator holds the current piece reversed, so its head
is the character preceding the scan position (the lookbehind). -/
def sentSplitAux : Bool → List Char → List Char → List (List Char)
  | _, acc, [] => [acc.reverse]
  | skipping, acc, c :: rest =>
    if skipping then
      if isWs c then sentSplitAux true acc rest
      else sentSplitAux false (c :: acc) rest
    else
      if isWs c ∧ prevPunct acc then acc.reverse :: sentSplitAux true [] rest
      else sentSplitAux false (c :: acc) rest

/-- `re.split(r'(?<=[.!?])\s+', content)`: split at every whitespace run
immediately preceded by sentence punctuation. -/
def sentSplit (content : List Char) : List (List Char) :=
  sentSplitAux false [] content

/-! ## The keyword-focused strategy
(`AdvancedDocumentProcessor.create_keyword_focused_chunks`) -/

/-- The fixed keyword list `self.important_keywords`. -/
def important_keywords : List (List Char) :=
  [("dog".data), ("pet".data), ("animal".data), ("leash".data), ("park".data),
   ("recreation".data),
   ("fire".data), ("pit".data), ("burn".data), ("flame".data), ("outdoor".data),
   ("vote".data), ("voting".data), ("election".data), ("ballot".data),
   ("register".data),
   ("permit".data), ("license".data), ("application".data), ("fee".data),
   ("noise".data), ("sound".data), ("quiet".data), ("disturb".data),
   ("parking".data), ("vehicle".data), ("car".data), ("truck".data),
   ("business".data), ("commercial".data), ("retail".data), ("restaurant".data),
   ("zoning".data), ("residential".data), ("industrial".data),
   ("tax".data), ("property".data), ("assessment".data), ("payment".data),
   ("smoking".data), ("tobacco".data), ("cigarette".data), ("vaping".data),
   ("alcohol".data), ("beer".data), ("wine".data), ("liquor".data),
   ("chicken".data), ("livestock".data), ("farm".data), ("agriculture".data)]

/-- Python substring test `needle in hay`. -/
def containsSub (needle hay : List Char) : Bool :=
  decide (needle <:+: hay)

/-- The context window `sentences[max(0, i-1) : min(len(sentences), i+2)]`
(natural subtraction realises the `max(0, ...)`). -/
def contextWindow (sentences : List (List Char)) (i : Nat) : List (List Char) :=
  (sentences.drop (i - 1)).take (min sentences.length (i + 2) - (i - 1))

/-- `" ".join(s.strip() for s in context_window)`. -/
def windowJoin (sentences : List (List Char)) (i : Nat) : List Char :=
  joinSep [' '] ((contextWindow sentences i).map pyStrip)

/-- The keyword-focused chunk constructor (spread of the document metadata
plus the keyword tags). -/
def mkKeywordChunk (kw body : List Char) : Chunk :=
  ⟨body, ⟨("keyword_focused".data), ("specific_query".data), some kw, none⟩⟩

/-- The inner sentence loop of `create_keyword_focused_chunks` for one
keyword; `i` is the index within `sentences` of the head of `rest`. -/
def kwScan (sentences : List (List Char)) (kw : List Char) :
    Nat → List (List Char) → List Chunk
  | _, [] => []
  | i, s :: rest =>
    (if containsSub (pyLower kw) (pyLower s) ∧ 20 < (pyStrip s).length then
       (if 100 < (windowJoin sentences i).length then
          [mkKeywordChunk kw (windowJoin sentences i)]
        else [])
     else []) ++ kwScan sentences kw (i + 1) rest

/-- `AdvancedDocumentProcessor.create_keyword_focused_chunks` on a
document's text. -/
def create_keyword_focused_chunks (content : List Char) : List Chunk :=
  (important_keywords.map (fun kw =>
    kwScan (sentSplit content) kw 0 (sentSplit content))).flatten

/-! ## The rule-based strategy (`AdvancedDocumentProcessor.create_qa_chunks`)

Each of the four patterns has the shape
`(lit1|lit2|...)[^.!?]*[.!?]` (matched with `re.IGNORECASE`), so it is
compiled to: one of the alternative literals as a prefix (case-folded),
then everything up to and including the first sentence punctuation. -/

/-- Alternatives of `r'(shall not|shall be|must|required|prohibited|allowed|permitted)[^.!?]*[.!?]'`. -/
def ruleAlts0 : List (List Char) :=
  [("shall not".data), ("shall be".data), ("must".data), ("required".data),
   ("prohibited".data), ("allowed".data), ("permitted".data)]

/-- Alternatives of `r'(it is unlawful|violation|penalty|fine)[^.!?]*[.!?]'`. -/
def ruleAlts1 : List (List Char) :=
  [("it is unlawful".data), ("violation".data), ("penalty".data), ("fine".data)]

/-- Alternatives of `r'(application for|permit required|license fee)[^.!?]*[.!?]'`. -/
def ruleAlts2 : List (List Char) :=
  [("application for".data), ("permit required".data), ("license fee".data)]

/-- Alternatives of `r'(hours of operation|open from|closed to)[^.!?]*[.!?]'`. -/
def ruleAlts3 : List (List Char) :=
  [("hours of operation".data), ("open from".data), ("closed to".data)]

/-- Number of characters consumed by `[^.!?]*[.!?]` (greedy up to and
including the first sentence punctuation), if one exists. -/
def tailPunctLen : List Char → Option Nat
  | [] => none
  | c :: rest =>
    if isPunctEnd c then some 1 else (tailPunctLen rest).map (· + 1)

/-- Try to match one rule pattern at the head of `cs` (case-insensitively):
some alternative literal is a prefix, followed by the punctuation tail.
Returns the total match length. -/
def ruleMatchAt (alts : List (List Char)) (cs : List Char) : Option Nat :=
  match alts.findSome? (fun a =>
      if a.isPrefixOf (pyLower (cs.take a.length)) then some a.length else none) with
  | none => none
  | some k => (tailPunctLen (cs.drop k)).map (k + ·)

/-- `re.finditer` scanner for one rule pattern: leftmost non-overlapping
matches with their `(start, end)` spans. One unit of fuel is consumed per
step; `finditerRule` supplies enough. The `max k 1` advancement mirrors
`re`'s guarantee of progress (with these non-empty literals `k ≥ 1`
anyway). -/
def finditerRuleAux (alts : List (List Char)) :
    Nat → List Char → Nat → List (Nat × Nat)
  | 0, _, _ => []
  | _ + 1, [], _ => []
  | fuel + 1, c :: rest, pos =>
    match ruleMatchAt alts (c :: rest) with
    | some k =>
      (pos, pos + k) ::
        finditerRuleAux alts fuel ((c :: rest).drop (max k 1)) (pos + max k 1)
    | none => finditerRuleAux alts fuel rest (pos + 1)

/-- All matches of one rule pattern over `content`. -/
def finditerRule (alts : List (List Char)) (content : List Char) :
    List (Nat × Nat) :=
  finditerRuleAux alts content.length content 0

/-- ASCII lower-case letter (`[a-z]`, no IGNORECASE on the cleanup subs). -/
def isAsciiLower (c : Char) : Bool :=
  'a' ≤ c && c ≤ 'z'

/-- `re.sub(r'^[a-z].*?\s', '', context)`: if the context starts with an
ASCII lower-case letter and contains whitespace, drop everything up to and
including the first whitespace character (the characters before it are
non-whitespace, hence not newlines, so the lazy `.*?` always reaches it). -/
def qa_cleanup_start : List Char → List Char
  | [] => []
  | c :: rest =>
    if isAsciiLower c then
      match rest.findIdx? (fun x => isWs x) with
      | some j => rest.drop (j + 1)
      | none => c :: rest
    else c :: rest

/-- Does the tail after the captured punctuation match `.*$`? Returns
`some keepNl` on success, where `keepNl` records that the dollar matched
just before a final newline (which then survives the substitution). -/
def tailDollar (l : List Char) : Option Bool :=
  if l.all (fun c => !(c = '\n')) then some false
  else if l.getLast? = some '\n' ∧ l.dropLast.all (fun c => !(c = '\n')) then
    some true
  else none

/-- Lazy search for the captured `[.!?]` reachable from the whitespace
without crossing a newline and whose tail matches `.*$`. -/
def findPunctDollar : List Char → Option (Char × Bool)
  | [] => none
  | c :: rest =>
    if isPunctEnd c then
      match tailDollar rest with
      | some keep => some (c, keep)
      | none => findPunctDollar rest
    else if c = '\n' then none
    else findPunctDollar rest

/-- `re.sub(r'\s.*?([.!?]).*$', r'\1', context)`: at the leftmost
whitespace admitting a full match, replace everything from it onward by the
captured punctuation (plus the final newline when the dollar stopped before
one); otherwise the context is unchanged. -/
def qa_cleanup_end : List Char → List Char
  | [] => []
  | c :: rest =>
    if isWs c then
      match findPunctDollar rest with
      | some (p, keep) => if keep then [p, '\n'] else [p]
      | none => c :: qa_cleanup_end rest
    else c :: qa_cleanup_end rest

/-- The rule-based chunk constructor. `pidx` is the pattern index. -/
def mkQaChunk (pidx : Nat) (body : List Char) : Chunk :=
  ⟨body, ⟨("qa_style".data), ("rule_based".data), none, some pidx⟩⟩

/-- The context attached to one rule match: 150 characters of slack on both
sides (clamped), stripped, then the two boundary cleanups. -/
def qa_context (content : List Char) (s e : Nat) : List Char :=
  qa_cleanup_end (qa_cleanup_start
    (pyStrip (pySlice content (s - 150) (min content.length (e + 150)))))

/-- The chunks contributed by one rule pattern. -/
def qaChunksFor (content : List Char) (pidx : Nat) (alts : List (List Char)) :
    List Chunk :=
  (finditerRule alts content).filterMap (fun se =>
    if 100 < (qa_context content se.1 se.2).length then
      some (mkQaChunk pidx (qa_context content se.1 se.2))
    else none)

/-- `AdvancedDocumentProcessor.create_qa_chunks` on a document's text. -/
def create_qa_chunks (content : List Char) : List Chunk :=
  qaChunksFor content 0 ruleAlts0 ++ qaChunksFor content 1 ruleAlts1 ++
    qaChunksFor content 2 ruleAlts2 ++ qaChunksFor content 3 ruleAlts3

/-! ## Membership lemmas for the keyword strategy -/

theorem infix_joinSep (sep : List Char) (l : List (List Char)) (x : List Char)
    (hx : x ∈ l) : x <:+: joinSep sep l := by
  induction l with
  | nil => simp at hx
  | cons y ys ih =>
    rcases List.mem_cons.mp hx with rfl | hx'
    · cases ys with
      | nil => exact ⟨[], [], by simp [joinSep]⟩
      | cons z zs => exact ⟨[], sep ++ joinSep sep (z :: zs), by simp [joinSep]⟩
    · cases ys with
      | nil => simp at hx'
      | cons z zs =>
        obtain ⟨s, t, hst⟩ := ih hx'
        refine ⟨y ++ sep ++ s, t, ?_⟩
        show y ++ sep ++ s ++ x ++ t = joinSep sep (y :: z :: zs)
        rw [show joinSep sep (y :: z :: zs) = y ++ sep ++ joinSep sep (z :: zs) from rfl]
        rw [← hst]
        simp

theorem mem_contextWindow (sentences : List (List Char)) (i : Nat)
    (s : List Char) (h : sentences.get? i = some s) :
    s ∈ contextWindow sentences i := by
  have hi : i < sentences.length := (List.get?_eq_some.mp h).1
  have h1 : (sentences.drop (i - 1)).get? (i - (i - 1)) = some s := by
    rw [List.get?_drop, show (i - 1) + (i - (i - 1)) = i by omega]
    exact h
  have h2 : i - (i - 1) < min sentences.length (i + 2) - (i - 1) := by omega
  have h3 : ((sentences.drop (i - 1)).take
      (min sentences.length (i + 2) - (i - 1))).get? (i - (i - 1)) = some s := by
    rw [List.get?_take h2]
    exact h1
  exact List.get?_mem h3

theorem kwScan_mem (sentences : List (List Char)) (kw : List Char)
    (rest : List (List Char)) :
    ∀ (i n : Nat) (s : List Char), rest.get? n = some s →
      containsSub (pyLower kw) (pyLower s) = true →
      20 < (pyStrip s).length →
      100 < (windowJoin sentences (i + n)).length →
      mkKeywordChunk kw (windowJoin sentences (i + n)) ∈
        kwScan sentences kw i rest := by
  induction rest with
  | nil => intro i n s h; simp at h
  | cons s₀ rest' ih =>
    intro i n s h hc hlen hwin
    cases n with
    | zero =>
      have hs : s₀ = s := by simpa using h
      subst hs
      simp only [kwScan]
      apply List.mem_append_left
      rw [if_pos ⟨hc, hlen⟩]
      simp only [Nat.add_zero] at hwin ⊢
      rw [if_pos hwin]
      exact List.mem_singleton.mpr rfl
    | succ m =>
      simp only [kwScan]
      apply List.mem_append_right
      have harith : i + (m + 1) = (i + 1) + m := by omega
      rw [harith] at hwin ⊢
      exact ih (i + 1) m s (by simpa using h) hc hlen hwin

theorem kwScan_mem_elim (sentences : List (List Char)) (kw : List Char) :
    ∀ (rest : List (List Char)) (i : Nat), rest = sentences.drop i →
      ∀ ch ∈ kwScan sentences kw i rest,
        ∃ j s, sentences.get? j = some s ∧ 20 < (pyStrip s).length ∧
          100 < (windowJoin sentences j).length ∧
          ch = mkKeywordChunk kw (windowJoin sentences j) := by
  intro rest
  induction rest with
  | nil => intro i _ ch hch; simp [kwScan] at hch
  | cons s₀ rest' ih =>
    intro i hdrop ch hch
    have hget : sentences.get? i = some s₀ := by
      rw [List.get?_eq_getElem?, ← List.head?_drop, ← hdrop]
      rfl
    have hdrop' : rest' = sentences.drop (i + 1) := by
      rw [← List.tail_drop, ← hdrop]
      rfl
    simp only [kwScan] at hch
    rcases List.mem_append.mp hch with hch1 | hch2
    · by_cases hcond : containsSub (pyLower kw) (pyLower s₀) = true ∧
          20 < (pyStrip s₀).length
      · rw [if_pos hcond] at hch1
        by_cases hwin : 100 < (windowJoin sentences i).length
        · rw [if_pos hwin] at hch1
          exact ⟨i, s₀, hget, hcond.2, hwin, List.mem_singleton.mp hch1⟩
        · rw [if_neg hwin] at hch1
          simp at hch1
      · rw [if_neg hcond] at hch1
        simp at hch1
    · exact ih (i + 1) hdrop' ch hch2

/-! ## Non-whitespace content of chunk texts -/

theorem mem_dropWhile_of_notWs (l : List Char) (x : Char) (hx : x ∈ l)
    (hw : isWs x = false) : x ∈ l.dropWhile isWs := by
  rcases List.mem_append.mp
      ((List.takeWhile_append_dropWhile isWs l).symm ▸ hx) with h1 | h2
  · rw [List.mem_takeWhile_imp h1] at hw
    exact absurd hw (by simp)
  · exact h2

theorem pyStrip_eq_nil_iff (l : List Char) :
    pyStrip l = [] ↔ ∀ x ∈ l, isWs x = true := by
  rw [pyStrip_eq, stripEnd_eq_nil_iff]
  constructor
  · intro h x hx
    by_cases hws : isWs x = true
    · exact hws
    · exact h x (mem_dropWhile_of_notWs l x hx (Bool.eq_false_iff.mpr hws))
  · intro h x hx
    exact h x ((List.dropWhile_suffix isWs).subset hx)

theorem pyStrip_ne_nil_of_notWs (l : List Char) (c : Char) (hc : c ∈ l)
    (hw : isWs c = false) : pyStrip l ≠ [] := by
  rw [Ne, pyStrip_eq_nil_iff]
  intro hall
  rw [hall c hc] at hw
  exact absurd hw (by simp)

theorem pyStrip_getLast?_notWs (l : List Char) (c : Char)
    (h : (pyStrip l).getLast? = some c) : isWs c = false := by
  have h2 : (List.dropWhile isWs ((l.dropWhile isWs).reverse)).head? = some c := by
    rw [← List.getLast?_reverse]
    exact h
  cases hd : List.dropWhile isWs ((l.dropWhile isWs).reverse) with
  | nil => rw [hd] at h2; simp at h2
  | cons d t =>
    rw [hd] at h2
    simp only [List.head?_cons, Option.some_inj] at h2
    rw [← h2]
    exact dropWhile_cons_head_false _ d t hd

theorem getLast?_mem (l : List Char) (c : Char) (h : l.getLast? = some c) :
    c ∈ l := by
  induction l with
  | nil => simp at h
  | cons a as ih =>
    cases as with
    | nil =>
      simp only [List.getLast?_singleton, Option.some_inj] at h
      simp [h]
    | cons b bs =>
      rw [List.getLast?_cons_cons] at h
      exact List.mem_cons_of_mem a (ih h)

theorem pyStrip_has_notWs (l : List Char) (h : pyStrip l ≠ []) :
    ∃ c ∈ pyStrip l, isWs c = false := by
  cases hlast : (pyStrip l).getLast? with
  | none => exact absurd (List.getLast?_eq_none.mp hlast) h
  | some c =>
    exact ⟨c, getLast?_mem _ c hlast, pyStrip_getLast?_notWs l c hlast⟩

theorem punctEnd_notWs (c : Char) (h : isPunctEnd c = true) : isWs c = false := by
  simp only [isPunctEnd, Bool.or_eq_true, decide_eq_true_eq] at h
  rcases h with (rfl | rfl) | rfl <;> rfl

theorem findPunctDollar_punct (l : List Char) (p : Char) (keep : Bool)
    (h : findPunctDollar l = some (p, keep)) : isPunctEnd p = true := by
  induction l with
  | nil => simp [findPunctDollar] at h
  | cons c rest ih =>
    simp only [findPunctDollar] at h
    by_cases hp : isPunctEnd c = true
    · rw [if_pos hp] at h
      cases htd : tailDollar rest with
      | none => rw [htd] at h; exact ih h
      | some k =>
        rw [htd] at h
        simp only [Option.some_inj, Prod.mk.injEq] at h
        rw [← h.1]
        exact hp
    · rw [if_neg hp] at h
      by_cases hn : c = '\n'
      · rw [if_pos hn] at h
        simp at h
      · rw [if_neg hn] at h
        exact ih h

theorem qa_cleanup_end_id_or_punct (u : List Char) :
    qa_cleanup_end u = u ∨ ∃ c ∈ qa_cleanup_end u, isPunctEnd c = true := by
  induction u with
  | nil => exact Or.inl rfl
  | cons c rest ih =>
    simp only [qa_cleanup_end]
    by_cases hw : isWs c = true
    · rw [if_pos hw]
      cases hfp : findPunctDollar rest with
      | some pk =>
        right
        obtain ⟨p, keep⟩ := pk
        refine ⟨p, ?_, findPunctDollar_punct rest p keep (by rw [hfp])⟩
        cases keep <;> simp
      | none =>
        rcases ih with h1 | ⟨d, hd, hdp⟩
        · exact Or.inl (by rw [h1])
        · exact Or.inr ⟨d, List.mem_cons_of_mem c hd, hdp⟩
    · rw [if_neg hw]
      rcases ih with h1 | ⟨d, hd, hdp⟩
      · exact Or.inl (by rw [h1])
      · exact Or.inr ⟨d, List.mem_cons_of_mem c hd, hdp⟩

theorem qa_cleanup_start_suffix (v : List Char) : qa_cleanup_start v <:+ v := by
  cases v with
  | nil => exact List.suffix_refl []
  | cons c rest =>
    simp only [qa_cleanup_start]
    by_cases hl : isAsciiLower c = true
    · rw [if_pos hl]
      cases hfi : rest.findIdx? (fun x => isWs x) with
      | none => exact List.suffix_refl _
      | some j =>
        exact (List.drop_suffix (j + 1) rest).trans (List.suffix_cons c rest)
    · rw [if_neg hl]

theorem suffix_getLast? (s v : List Char) (h : s <:+ v) (hne : s ≠ []) :
    s.getLast? = v.getLast? := by
  obtain ⟨pre, hpre⟩ := h
  obtain ⟨c, hc⟩ : ∃ c, s.getLast? = some c := by
    cases hl : s.getLast? with
    | none => exact absurd (List.getLast?_eq_none.mp hl) hne
    | some c => exact ⟨c, rfl⟩
  rw [← hpre, List.getLast?_append, hc]
  rfl

/-! ## Elimination lemmas for the rule-based strategy -/

theorem qaChunksFor_elim (content : List Char) (pidx : Nat)
    (alts : List (List Char)) (ch : Chunk) (hch : ch ∈ qaChunksFor content pidx alts) :
    ∃ s e, ch = mkQaChunk pidx (qa_context content s e) ∧
      100 < (qa_context content s e).length := by
  simp only [qaChunksFor, List.mem_filterMap] at hch
  obtain ⟨se, _, hse⟩ := hch
  by_cases hlen : 100 < (qa_context content se.1 se.2).length
  · rw [if_pos hlen] at hse
    exact ⟨se.1, se.2, (Option.some_inj.mp hse).symm, hlen⟩
  · rw [if_neg hlen] at hse
    simp at hse

theorem qa_context_strip_ne_nil (content : List Char) (s e : Nat)
    (h : qa_context content s e ≠ []) :
    pyStrip (qa_context content s e) ≠ [] := by
  have hctx : qa_context content s e = qa_cleanup_end (qa_cleanup_start
      (pyStrip (pySlice content (s - 150) (min content.length (e + 150))))) := rfl
  rcases qa_cleanup_end_id_or_punct (qa_cleanup_start
      (pyStrip (pySlice content (s - 150) (min content.length (e + 150)))))
    with hid | ⟨c, hc, hcp⟩
  · rw [hctx, hid] at h ⊢
    have hsfx := qa_cleanup_start_suffix
      (pyStrip (pySlice content (s - 150) (min content.length (e + 150))))
    have hv_ne : pyStrip (pySlice content (s - 150) (min content.length (e + 150))) ≠ [] := by
      intro h0
      rw [h0] at h
      exact h rfl
    obtain ⟨c, hc⟩ : ∃ c, (pyStrip (pySlice content (s - 150)
        (min content.length (e + 150)))).getLast? = some c := by
      cases hl : (pyStrip (pySlice content (s - 150)
          (min content.length (e + 150)))).getLast? with
      | none => exact absurd (List.getLast?_eq_none.mp hl) hv_ne
      | some c => exact ⟨c, rfl⟩
    have hcw : isWs c = false := pyStrip_getLast?_notWs _ c hc
    have hceq := suffix_getLast? _ _ hsfx h
    rw [hc] at hceq
    exact pyStrip_ne_nil_of_notWs _ c (getLast?_mem _ c hceq) hcw
  · rw [hctx]
    exact pyStrip_ne_nil_of_notWs _ c hc (punctEnd_notWs c hcp)

theorem windowJoin_strip_ne_nil (sentences : List (List Char)) (j : Nat)
    (s : List Char) (hs : sentences.get? j = some s)
    (hlen : 20 < (pyStrip s).length) :
    pyStrip (windowJoin sentences j) ≠ [] := by
  have hmem : s ∈ contextWindow sentences j := mem_contextWindow _ _ _ hs
  have hmem2 : pyStrip s ∈ (contextWindow sentences j).map pyStrip :=
    List.mem_map_of_mem _ hmem
  have hinf : pyStrip s <:+: windowJoin sentences j := infix_joinSep _ _ _ hmem2
  have hne : pyStrip s ≠ [] := by
    intro h0
    rw [h0] at hlen
    simp at hlen
  obtain ⟨c, hc, hcw⟩ := pyStrip_has_notWs s hne
  exact pyStrip_ne_nil_of_notWs _ c (hinf.subset hc) hcw

/-- C4: every passage emitted by the keyword-focused strategy and every
passage emitted by the rule-based strategy has text of length strictly
greater than 100 characters, hence its text is neither empty nor
whitespace-only. -/
theorem claim_C4_min_length (content : List Char) (ch : Chunk)
    (h : ch ∈ create_keyword_focused_chunks content ∨
         ch ∈ create_qa_chunks content) :
    100 < ch.page_content.length ∧ ch.page_content ≠ [] ∧
      pyStrip ch.page_content ≠ [] := by
  have hmain : 100 < ch.page_content.length ∧ pyStrip ch.page_content ≠ [] := by
    rcases h with hkw | hqa
    · simp only [create_keyword_focused_chunks, List.mem_flatten] at hkw
      obtain ⟨l, hl, hchl⟩ := hkw
      obtain ⟨kw, _, hkweq⟩ := List.mem_map.mp hl
      rw [← hkweq] at hchl
      obtain ⟨j, s, hs, hslen, hwlen, hcheq⟩ :=
        kwScan_mem_elim (sentSplit content) kw (sentSplit content) 0
          (by simp) ch hchl
      rw [hcheq]
      exact ⟨hwlen, windowJoin_strip_ne_nil _ j s hs hslen⟩
    · have hsome : ∃ pidx alts, ch ∈ qaChunksFor content pidx alts := by
        simp only [create_qa_chunks, List.mem_append] at hqa
        rcases hqa with ((h1 | h2) | h3) | h4
        · exact ⟨0, ruleAlts0, h1⟩
        · exact ⟨1, ruleAlts1, h2⟩
        · exact ⟨2, ruleAlts2, h3⟩
        · exact ⟨3, ruleAlts3, h4⟩
      obtain ⟨pidx, alts, hch⟩ := hsome
      obtain ⟨s, e, hcheq, hlen⟩ := qaChunksFor_elim content pidx alts ch hch
      rw [hcheq]
      refine ⟨hlen, qa_context_strip_ne_nil content s e ?_⟩
      intro h0
      rw [h0] at hlen
      simp at hlen
  refine ⟨hmain.1, ?_, hmain.2⟩
  intro h0
  have h1 := hmain.1
  rw [h0] at h1
  simp at h1

/-! ## Concrete documents for C2 and C4 -/

/-- The sentence named by claim C2. -/
def dogSentence : List Char :=
  ("Dogs must be leashed when in any county park.".data)

/-- A document consisting of exactly the C2 sentence. -/
def dogDoc1 : List Char := dogSentence

/-- The C2 sentence embedded in a one-line document with ample context on
both sides. -/
def prefixDoc : List Char :=
  ("Some preamble sentence here first. Dogs must be leashed when in any county park. And a trailing sentence also goes here.".data)

/-- The C2 sentence followed by punctuation-free multi-line filler: the
boundary cleanup of the rule-based strategy cannot find a match here, so
the rule context survives intact. -/
def qaDemoContent : List Char :=
  dogSentence ++
    ("\nzq zq zq zq zq zq zq zq zq zq zq zq zq zq zq zq zq zq zq zq zq zq zq zq zq zq zq\nzq zq zq zq zq zq zq zq zq zq".data)

/-- Counterexample to C2 as stated: the single-sentence document containing
the C2 sentence gets no keyword-focused chunk and no rule-based chunk at
all (the 100-character minimum excludes the keyword windows, and the
boundary cleanup truncates the rule context below the minimum); moreover
even with ample one-line context (`prefixDoc`) the rule-based strategy
emits nothing, because the cleanup `re.sub(r'\s.*?([.!?]).*$', r'\1', ...)`
truncates the context to its first word plus a punctuation mark. -/
theorem claim_C2_counterexample :
    dogSentence <:+: dogDoc1 ∧
    create_keyword_focused_chunks dogDoc1 = [] ∧
    create_qa_chunks dogDoc1 = [] ∧
    dogSentence <:+: prefixDoc ∧
    create_qa_chunks prefixDoc = [] :=
  ⟨by decide, by decide, by decide, by decide, by decide⟩

/-- C2 (amended): whenever the sentence splitter yields the C2 sentence as
sentence `i` of a document and the joined context window around `i` exceeds
100 characters, the keyword-focused strategy emits a passage with focus
keyword "dog" containing the sentence.  The rule-based guarantee does not
hold universally; it holds for documents where the boundary cleanup leaves
the rule context intact, as on the concrete document `qaDemoContent`. -/
theorem claim_C2_amended :
    (∀ (content : List Char) (i : Nat),
        (sentSplit content).get? i = some dogSentence →
        100 < (windowJoin (sentSplit content) i).length →
        ∃ ch ∈ create_keyword_focused_chunks content,
          ch.meta.focus_keyword = some ("dog".data) ∧
          dogSentence <:+: ch.page_content) ∧
    (∃ ch ∈ create_qa_chunks qaDemoContent,
        ch.meta.strategy = ("rule_based".data) ∧
        dogSentence <:+: ch.page_content) := by
  constructor
  · intro content i hget hwin
    refine ⟨mkKeywordChunk ("dog".data) (windowJoin (sentSplit content) i),
      ?_, rfl, ?_⟩
    · simp only [create_keyword_focused_chunks, List.mem_flatten]
      refine ⟨kwScan (sentSplit content) ("dog".data) 0 (sentSplit content),
        List.mem_map_of_mem _ (List.mem_cons_self _ _), ?_⟩
      have hw0 : 100 < (windowJoin (sentSplit content) (0 + i)).length := by
        rwa [Nat.zero_add]
      have h2 := kwScan_mem (sentSplit content) ("dog".data)
        (sentSplit content) 0 i dogSentence hget (by decide) (by decide) hw0
      rwa [Nat.zero_add] at h2
    · have hmem : dogSentence ∈ contextWindow (sentSplit content) i :=
        mem_contextWindow _ _ _ hget
      have hmem2 : dogSentence ∈ (contextWindow (sentSplit content) i).map pyStrip := by
        have h3 := List.mem_map_of_mem pyStrip hmem
        rwa [show pyStrip dogSentence = dogSentence by decide] at h3
      exact infix_joinSep _ _ _ hmem2
  · decide

/-- Witness for the amended C2 at the concrete document `prefixDoc`, whose
second sentence is the C2 sentence and whose window is 120 characters. -/
theorem claim_C2_amended_witness :
    (sentSplit prefixDoc).get? 1 = some dogSentence ∧
    100 < (windowJoin (sentSplit prefixDoc) 1).length ∧
    ∃ ch ∈ create_keyword_focused_chunks prefixDoc,
      ch.meta.focus_keyword = some ("dog".data) ∧
      dogSentence <:+: ch.page_content :=
  ⟨by decide, by decide, claim_C2_amended.1 prefixDoc 1 (by decide) (by decide)⟩

/-- Witness for C4: a concrete keyword-focused chunk of `prefixDoc`
satisfies the minimum-length and non-whitespace properties. -/
theorem claim_C4_min_length_witness :
    100 < (mkKeywordChunk ("dog".data) prefixDoc).page_content.length ∧
    (mkKeywordChunk ("dog".data) prefixDoc).page_content ≠ [] ∧
    pyStrip (mkKeywordChunk ("dog".data) prefixDoc).page_content ≠ [] :=
  claim_C4_min_length prefixDoc _ (Or.inl (by decide))

/-! ## The HTML node model (`scraper.py` via BeautifulSoup) -/

/-- A parsed HTML node: a text node (`NavigableString`) or an element with
tag name, class list, optional `role` attribute and children. -/
inductive Node where
  | text : List Char → Node
  | elem : List Char → List (List Char) → Option (List Char) → List Node → Node

/-- The CSS selectors the scraper uses: plain tag, `.class`, and
`[role="..."]`. -/
inductive Selector where
  | tag : List Char → Selector
  | cls : List Char → Selector
  | role : List Char → Selector

/-- Does an element match a selector? -/
def nodeMatches (sel : Selector) : Node → Bool
  | Node.text _ => false
  | Node.elem t cs r _ =>
    match sel with
    | Selector.tag name => t == name
    | Selector.cls name => cs.contains name
    | Selector.role v => r == some v

mutual
/-- All strings of a subtree in document order (BeautifulSoup `strings`). -/
def nodeStrings : Node → List (List Char)
  | Node.text s => [s]
  | Node.elem _ _ _ ch => nodeStringsList ch

def nodeStringsList : List Node → List (List Char)
  | [] => []
  | n :: rest => nodeStrings n ++ nodeStringsList rest
end

/-- `get_text(separator=sep, strip=True)`: each string stripped, empty ones
skipped, the rest joined with the separator. -/
def getTextStrip (sep : List Char) (n : Node) : List Char :=
  joinSep sep (((nodeStrings n).map pyStrip).filter (fun s => !(s.isEmpty)))

mutual
/-- Worker of `elemsWithSiblings` for one node given its following
siblings. -/
def elemsWithSiblingsNode : Node → List Node → List (Node × List Node)
  | Node.text _, _ => []
  | Node.elem t c r ch, sibs =>
    (Node.elem t c r ch, sibs) :: elemsWithSiblings ch

/-- Every element of the forest in document (pre-order) order — the order
of `find_all` — paired with its chain of following siblings
(`next_sibling`). -/
def elemsWithSiblings : List Node → List (Node × List Node)
  | [] => []
  | n :: rest => elemsWithSiblingsNode n rest ++ elemsWithSiblings rest
end

mutual
/-- Worker of `select_one` for one node. -/
def selectOneNode (sel : Selector) : Node → Option Node
  | Node.text _ => none
  | Node.elem t cs r ch =>
    if nodeMatches sel (Node.elem t cs r ch) then some (Node.elem t cs r ch)
    else select_one sel ch

/-- `soup.select_one(sel)`: the first matching element in document order. -/
def select_one (sel : Selector) : List Node → Option Node
  | [] => none
  | n :: rest =>
    match selectOneNode sel n with
    | some m => some m
    | none => select_one sel rest
end

mutual
/-- Worker of `decomposeTags` for one node. -/
def decomposeNode (bad : List (List Char)) : Node → List Node
  | Node.text s => [Node.text s]
  | Node.elem t c r ch =>
    if bad.contains t then [] else [Node.elem t c r (decomposeTags bad ch)]

/-- `for s in soup([...tags...]): s.decompose()`: remove all subtrees rooted
at elements with one of the given tags. -/
def decomposeTags (bad : List (List Char)) : List Node → List Node
  | [] => []
  | n :: rest => decomposeNode bad n ++ decomposeTags bad rest
end

mutual
/-- BeautifulSoup `Tag.string`: the unique string reached through a chain
of single-child elements, if any. -/
def nodeString : Node → Option (List Char)
  | Node.text s => some s
  | Node.elem _ _ _ ch => nodeStringList ch

def nodeStringList : List Node → Option (List Char)
  | [c] => nodeString c
  | _ => none
end

/-! ## The section-marker regular expressions of `scraper.py` -/

/-- The `[\d-]` character class. -/
def isDigitDash (c : Char) : Bool := c.isDigit || c = '-'

/-- `Sec\.\s*[\d-]+\.` anchored at the head. -/
def matchSecHere : List Char → Bool
  | 'S' :: 'e' :: 'c' :: '.' :: rest =>
    !(((rest.dropWhile isWs).takeWhile isDigitDash).isEmpty) &&
      (match (rest.dropWhile isWs).dropWhile isDigitDash with
       | '.' :: _ => true
       | _ => false)
  | _ => false

/-- `Section\s+[\d-]+` anchored at the head. -/
def matchSectionHere : List Char → Bool
  | 'S' :: 'e' :: 'c' :: 't' :: 'i' :: 'o' :: 'n' :: rest =>
    !((rest.takeWhile isWs).isEmpty) &&
      !(((rest.dropWhile isWs).takeWhile isDigitDash).isEmpty)
  | _ => false

/-- `§\s*[\d-]+` anchored at the head. -/
def matchPilcrowHere : List Char → Bool
  | '§' :: rest => !(((rest.dropWhile isWs).takeWhile isDigitDash).isEmpty)
  | _ => false

/-- `\d+-\d+` anchored at the head. -/
def matchNumDashHere : List Char → Bool
  | [] => false
  | c :: rest =>
    c.isDigit &&
      (match (c :: rest).dropWhile Char.isDigit with
       | '-' :: d :: _ => d.isDigit
       | _ => false)

/-- `re.search` driver: does the anchored matcher succeed at any
position? -/
def searchHere (p : List Char → Bool) : List Char → Bool
  | [] => p []
  | c :: rest => p (c :: rest) || searchHere p rest

/-- `re.search(r'Sec\.\s*[\d-]+\.', t)`. -/
def searchSec (t : List Char) : Bool := searchHere matchSecHere t

/-- `re.search(r'Section\s+[\d-]+', t)`. -/
def searchSection (t : List Char) : Bool := searchHere matchSectionHere t

/-- `re.search(r'§\s*[\d-]+', t)`. -/
def searchPilcrow (t : List Char) : Bool := searchHere matchPilcrowHere t

/-- `re.search(r'\d+-\d+', t)`. -/
def searchNumDash (t : List Char) : Bool := searchHere matchNumDashHere t

/-- The header test of `extract_sections`: any of the four patterns. -/
def anySectionMarker (t : List Char) : Bool :=
  searchSec t || searchSection t || searchPilcrow t || searchNumDash t

/-- The stop test of `extract_section_content`:
`re.search(r'Sec\.\s*[\d-]+\.|Section\s+[\d-]+', text)` — only two of the
four marker patterns. -/
def searchStop (t : List Char) : Bool := searchSec t || searchSection t

/-! ## Section extraction (`extract_sections`, `extract_section_content`) -/

/-- The tags scanned by `extract_sections`:
`soup.find_all(['h1', 'h2', 'h3', 'h4', 'p', 'div'])`. -/
def sectionFindTags : List (List Char) :=
  [("h1".data), ("h2".data), ("h3".data), ("h4".data), ("p".data), ("div".data)]

/-- The while-loop of `extract_section_content` over the `next_sibling`
chain: before each node the 10-part cap is checked; the node's stripped
text is appended when longer than 20 characters; afterwards, if the text
matches the stop patterns, the loop breaks (so a matching sibling's text is
already in the parts). Both tags and `NavigableString`s answer `get_text`
(BeautifulSoup ≥ 4.9), so every sibling is processed. -/
def escLoop : List Node → List (List Char) → List (List Char)
  | [], acc => acc
  | n :: rest, acc =>
    if 10 ≤ acc.length then acc
    else
      if getTextStrip [] n ≠ [] ∧ 20 < (getTextStrip [] n).length then
        if searchStop (getTextStrip [] n) then acc ++ [getTextStrip [] n]
        else escLoop rest (acc ++ [getTextStrip [] n])
      else
        if searchStop (getTextStrip [] n) then acc
        else escLoop rest acc

/-- `extract_section_content`: collect following-sibling text and join with
blank lines (empty string when nothing was collected). -/
def extract_section_content (sibs : List Node) : List Char :=
  if escLoop sibs [] = [] then []
  else joinSep ("\n\n".data) (escLoop sibs [])

/-- Is a node an element with one of the `find_all` tags of
`extract_sections`? -/
def isSectionTagged : Node → Bool
  | Node.text _ => false
  | Node.elem t _ _ _ => sectionFindTags.contains t

/-- The accumulated `sections` list of `extract_sections`: every
`h1/h2/h3/h4/p/div` element whose text matches a section-marker pattern
becomes a header; a `(title, content)` record is emitted iff the collected
body is non-empty. -/
def sectionsList (soup : List Node) : List (List Char × List Char) :=
  (elemsWithSiblings soup).filterMap (fun p =>
    if isSectionTagged p.1 ∧ anySectionMarker (getTextStrip [] p.1) then
      (if extract_section_content p.2 ≠ [] then
         some (getTextStrip [] p.1, extract_section_content p.2)
       else none)
    else none)

/-- `extract_sections`: `sections if sections else None` — `None` instead
of an empty list. -/
def extract_sections (soup : List Node) :
    Option (List (List Char × List Char)) :=
  if (sectionsList soup).isEmpty then none else some (sectionsList soup)

/-! ## Title extraction (`extract_page_title`) -/

/-- The ordered candidate selectors of `extract_page_title`. -/
def titleSelectors : List Selector :=
  [Selector.tag ("h1".data), Selector.cls ("page-title".data),
   Selector.cls ("section-title".data), Selector.cls ("ordinance-title".data),
   Selector.tag ("title".data)]

/-- The selector loop of `extract_page_title`: first candidate with
non-empty stripped text whose whitespace-normalised form is longer than 10
characters; otherwise the sentinel.  A total function: no exception can
escape. -/
def extract_page_title_go : List Selector → List Node → List Char
  | [], _ => ("Unknown Title".data)
  | sel :: rest, soup =>
    match select_one sel soup with
    | some el =>
      if getTextStrip [] el ≠ [] then
        (if 10 < (collapseWs (getTextStrip [] el)).length then
           collapseWs (getTextStrip [] el)
         else extract_page_title_go rest soup)
      else extract_page_title_go rest soup
    | none => extract_page_title_go rest soup

/-- `extract_page_title`. -/
def extract_page_title (soup : List Node) : List Char :=
  extract_page_title_go titleSelectors soup

/-- Modelled from the spec's wording of title resolution ("accept the first
candidate whose trimmed text exceeds a minimum length (10 characters) after
whitespace normalization; otherwise return a sentinel"), to be compared
with `extract_page_title`. -/
def specTitleResolution (soup : List Node) : List Char :=
  (titleSelectors.findSome? (fun sel =>
    (select_one sel soup).bind (fun el =>
      if 10 < (collapseWs (getTextStrip [] el)).length then
        some (collapseWs (getTextStrip [] el))
      else none))).getD ("Unknown Title".data)

/-! ## Content extraction (`extract_page_content`) -/

/-- The ordered container selectors of `extract_page_content`. -/
def contentSelectors : List Selector :=
  [Selector.cls ("content".data), Selector.cls ("main-content".data),
   Selector.cls ("ordinance-content".data), Selector.cls ("section-content".data),
   Selector.role ("main".data), Selector.tag ("main".data)]

/-- The tags removed before content extraction. -/
def badTags : List (List Char) :=
  [("script".data), ("style".data), ("nav".data), ("header".data),
   ("footer".data)]

/-- The navigation-boilerplate blocklist of the fallback scan. -/
def skipTerms : List (List Char) :=
  [("municode".data), ("next".data), ("search".data), ("navigation".data)]

/-- First container selector whose `get_text(separator='\n', strip=True)`
exceeds 100 characters. -/
def findContentContainer : List Selector → List Node → Option (List Char)
  | [], _ => none
  | sel :: rest, soup =>
    match select_one sel soup with
    | some el =>
      if 100 < (getTextStrip ("\n".data) el).length then
        some (getTextStrip ("\n".data) el)
      else findContentContainer rest soup
    | none => findContentContainer rest soup

/-- The fallback scan `soup.find_all(['p', 'div'], string=True)` keeping
blocks longer than 50 characters without boilerplate terms. -/
def fallbackBlocks (soup : List Node) : List (List Char) :=
  (elemsWithSiblings soup).filterMap (fun p =>
    match p.1 with
    | Node.text _ => none
    | Node.elem t _ _ _ =>
      if (t = ("p".data) ∨ t = ("div".data)) ∧ nodeString p.1 ≠ none then
        (if 50 < (getTextStrip [] p.1).length ∧
            ¬(skipTerms.any (fun sk => containsSub sk (pyLower (getTextStrip [] p.1)))) then
           some (getTextStrip [] p.1)
         else none)
      else none)

/-- Index of the last newline inside the whitespace run, if any. -/
def lastNlIdx (run : List Char) : Option Nat :=
  (run.reverse.findIdx? (fun c => c = '\n')).map (fun i => run.length - 1 - i)

/-- `re.sub(r'\n\s*\n', '\n\n', s)`: at each newline followed by a
whitespace run containing another newline, the newline plus the run up to
its last newline is replaced by a blank line.  One unit of fuel per step;
`subNl` supplies enough. -/
def subNlAux : Nat → List Char → List Char
  | 0, l => l
  | _ + 1, [] => []
  | fuel + 1, c :: rest =>
    if c = '\n' then
      match lastNlIdx (rest.takeWhile isWs) with
      | some j => '\n' :: '\n' :: subNlAux fuel (rest.drop (j + 1))
      | none => c :: subNlAux fuel rest
    else c :: subNlAux fuel rest

/-- `re.sub(r'\n\s*\n', '\n\n', s)`. -/
def subNl (l : List Char) : List Char := subNlAux l.length l

/-- Worker for `subSp` (run-collapsing of plain spaces). -/
def subSpAux : Bool → List Char → List Char
  | _, [] => []
  | prevSp, c :: rest =>
    if c = ' ' then
      if prevSp then subSpAux true rest else ' ' :: subSpAux true rest
    else c :: subSpAux false rest

/-- `re.sub(r' +', ' ', s)`. -/
def subSp (l : List Char) : List Char := subSpAux false l

/-- The body of `extract_page_content` after the destructive `decompose`
pass: container strategy, fallback scan, then whitespace cleanup. -/
def extract_page_content_core (soup : List Node) : List Char :=
  let parts := match findContentContainer contentSelectors soup with
    | some t => [t]
    | none => fallbackBlocks soup
  if parts = [] then []
  else pyStrip (subSp (subNl (joinSep ("\n\n".data) parts)))

/-- `extract_page_content` (including its own `decompose` pass). -/
def extract_page_content (soup : List Node) : List Char :=
  extract_page_content_core (decomposeTags badTags soup)

/-! ## `nodeId` extraction (`extract_node_id`) -/

/-- Split on a separator character, keeping empty parts. -/
def splitOnChar (sep : Char) : List Char → List Char → List (List Char)
  | acc, [] => [acc.reverse]
  | acc, c :: rest =>
    if c = sep then acc.reverse :: splitOnChar sep [] rest
    else splitOnChar sep (c :: acc) rest

/-- The query component of a URL per `urlparse`: the part after the first
`?` of the pre-fragment portion (empty when there is no `?`). -/
def urlQuery (url : List Char) : List Char :=
  ((url.takeWhile (fun c => !(c = '#'))).dropWhile (fun c => !(c = '?'))).drop 1

/-- `parse_qs` on a query string (default options): split on `&`, keep
only `key=value` parts with a non-empty value.  (Percent-decoding is not
modelled; the scraper's node identifiers contain no escapes.) -/
def parseQsPairs (query : List Char) : List (List Char × List Char) :=
  (splitOnChar '&' [] query).filterMap (fun part =>
    if part.contains '=' ∧
        ((part.dropWhile (fun c => !(c = '='))).drop 1) ≠ [] then
      some (part.takeWhile (fun c => !(c = '=')),
            (part.dropWhile (fun c => !(c = '='))).drop 1)
    else none)

/-- `extract_node_id`: `parse_qs(urlparse(url).query).get('nodeId', [''])[0]`
— the first `nodeId` value, or the empty string. Total (the `except` branch
of the source is unreachable in the model). -/
def extract_node_id (url : List Char) : List Char :=
  match (parseQsPairs (urlQuery url)).find?
      (fun p => p.1 == ("nodeId".data)) with
  | some p => p.2
  | none => []

/-! ## Page extraction result and the orchestrator (`scrape_known_chapters`) -/

/-- The dictionary returned by `extract_content_from_page`. -/
structure ContentData where
  title : List Char
  content : List Char
  sections : Option (List (List Char × List Char))
  node_id : List Char
  url : List Char
deriving DecidableEq, Repr

/-- `extract_content_from_page` on an already-rendered soup: the title is
taken from the pristine tree; `extract_page_content` then destructively
removes script/style/nav/header/footer subtrees, so the following
`extract_sections` call operates on the pruned tree. -/
def extract_content_from_page (soup : List Node) (url : List Char) :
    ContentData :=
  { title := extract_page_title soup
    content := extract_page_content_core (decomposeTags badTags soup)
    sections := extract_sections (decomposeTags badTags soup)
    node_id := extract_node_id url
    url := url }

/-- One entry of the orchestrator's URL worklist:
`(url, chapter_name, node_id)`. -/
structure ScrapeTarget where
  url : List Char
  chapter_name : List Char
  node_id : List Char
deriving DecidableEq, Repr

/-- `Chapter\s+(\d+)` anchored at the head; yields the digit group. -/
def matchChapterHere : List Char → Option (List Char)
  | 'C' :: 'h' :: 'a' :: 'p' :: 't' :: 'e' :: 'r' :: rest =>
    if !((rest.takeWhile isWs).isEmpty) &&
        !(((rest.dropWhile isWs).takeWhile Char.isDigit).isEmpty) then
      some ((rest.dropWhile isWs).takeWhile Char.isDigit)
    else none
  | _ => none

/-- `TITLE\s+(\d+)` anchored at the head; yields the digit group. -/
def matchTitleNumHere : List Char → Option (List Char)
  | 'T' :: 'I' :: 'T' :: 'L' :: 'E' :: rest =>
    if !((rest.takeWhile isWs).isEmpty) &&
        !(((rest.dropWhile isWs).takeWhile Char.isDigit).isEmpty) then
      some ((rest.dropWhile isWs).takeWhile Char.isDigit)
    else none
  | _ => none

/-- `re.search` driver returning the first match's value. -/
def searchFirst (p : List Char → Option (List Char)) :
    List Char → Option (List Char)
  | [] => p []
  | c :: rest =>
    match p (c :: rest) with
    | some r => some r
    | none => searchFirst p rest

/-- `extract_chapter_number`: "Chapter <n>" gives the numeric string,
"TITLE <n>" gives `T<n>`, otherwise `None`. -/
def extract_chapter_number (chapter_name : List Char) : Option (List Char) :=
  match searchFirst matchChapterHere chapter_name with
  | some digs => some digs
  | none =>
    match searchFirst matchTitleNumHere chapter_name with
    | some digs => some ('T' :: digs)
    | none => none

/-- The `OrdinanceSection` record as synthesised by the orchestrator (the
wall-clock `scraped_at` timestamp is outside the model). -/
structure OrdinanceSection where
  chapter : List Char
  chapter_number : Option (List Char)
  section_id : List Char
  title : List Char
  content : List Char
  url : List Char
  node_id : List Char
  subsections : Option (List (List Char × List Char))
  municipality : List Char
deriving DecidableEq, Repr

/-- Construction of an `OrdinanceSection` from a target and its page
data, exactly as in the loop body of `scrape_known_chapters`. -/
def mkOrdinance (t : ScrapeTarget) (cd : ContentData) : OrdinanceSection :=
  { chapter := t.chapter_name
    chapter_number := extract_chapter_number t.chapter_name
    section_id := t.node_id
    title := cd.title
    content := cd.content
    url := t.url
    node_id := t.node_id
    subsections := cd.sections
    municipality := ("Rockdale County".data) }

/-- The per-URL loop of `scrape_known_chapters`.  `fetch` abstracts the
rendering plus `extract_content_from_page` (returning `none` when the page
failed to load).  On truthy content an `OrdinanceSection` is appended to
the record list, otherwise the URL is appended to the failure list. -/
def scrapeLoop (fetch : List Char → Option ContentData) :
    List ScrapeTarget → List OrdinanceSection × List (List Char)
  | [] => ([], [])
  | t :: rest =>
    match fetch t.url with
    | some cd =>
      if cd.content ≠ [] then
        (mkOrdinance t cd :: (scrapeLoop fetch rest).1, (scrapeLoop fetch rest).2)
      else
        ((scrapeLoop fetch rest).1, t.url :: (scrapeLoop fetch rest).2)
    | none => ((scrapeLoop fetch rest).1, t.url :: (scrapeLoop fetch rest).2)

/-- A target fails when its fetch fails or yields empty content. -/
def isFailTarget (fetch : List Char → Option ContentData)
    (t : ScrapeTarget) : Bool :=
  match fetch t.url with
  | some cd => cd.content.isEmpty
  | none => true

/-! ## C8: title resolution -/

theorem title_go_eq (sels : List Selector) (soup : List Node) :
    extract_page_title_go sels soup =
      (sels.findSome? (fun sel =>
        (select_one sel soup).bind (fun el =>
          if 10 < (collapseWs (getTextStrip [] el)).length then
            some (collapseWs (getTextStrip [] el))
          else none))).getD ("Unknown Title".data) := by
  induction sels with
  | nil => rfl
  | cons sel rest ih =>
    simp only [extract_page_title_go, List.findSome?_cons]
    cases hso : select_one sel soup with
    | none => simpa using ih
    | some el =>
      dsimp only
      by_cases ht : getTextStrip [] el ≠ []
      · rw [if_pos ht]
        by_cases hlen : 10 < (collapseWs (getTextStrip [] el)).length
        · rw [if_pos hlen]
          simp [hlen]
        · rw [if_neg hlen]
          simp only [Option.some_bind, if_neg hlen]
          exact ih
      · rw [if_neg ht]
        push_neg at ht
        have hcw : collapseWs (getTextStrip [] el) = [] := by rw [ht]; rfl
        simp only [Option.some_bind, hcw]
        simpa using ih

/-- C8: for every page, `extract_page_title` returns exactly what the
spec's title-resolution rule prescribes (the normalised text of the first
candidate selector whose trimmed, whitespace-normalised text exceeds 10
characters, and the sentinel otherwise); in particular, on a page with no
heading, no matching title class and an empty `<title>`, it returns
"Unknown Title".  The model is a total function, so no exception can be
raised. -/
theorem claim_C8_title_fallback :
    (∀ soup : List Node, extract_page_title soup = specTitleResolution soup) ∧
    extract_page_title [Node.elem ("title".data) [] none []] =
      ("Unknown Title".data) :=
  ⟨fun soup => title_go_eq titleSelectors soup, by decide⟩

/-! ## C5: subsection body collection -/

theorem escLoop_length_le (sibs : List Node) :
    ∀ acc : List (List Char), acc.length ≤ 10 →
      (escLoop sibs acc).length ≤ 10 := by
  induction sibs with
  | nil => intro acc h; exact h
  | cons n rest ih =>
    intro acc h
    simp only [escLoop]
    by_cases hcap : 10 ≤ acc.length
    · rw [if_pos hcap]; exact h
    · rw [if_neg hcap]
      have hlt : acc.length < 10 := Nat.lt_of_not_le hcap
      by_cases hbig : getTextStrip [] n ≠ [] ∧ 20 < (getTextStrip [] n).length
      · rw [if_pos hbig]
        by_cases hstop : searchStop (getTextStrip [] n)
        · rw [if_pos hstop]
          simp only [List.length_append, List.length_singleton]
          omega
        · rw [if_neg hstop]
          refine ih _ ?_
          simp only [List.length_append, List.length_singleton]
          omega
      · rw [if_neg hbig]
        by_cases hstop : searchStop (getTextStrip [] n)
        · rw [if_pos hstop]; exact h
        · rw [if_neg hstop]; exact ih _ h

/-- The header elements collected by `extract_sections` paired with their
bodies, used to state the emission condition. -/
theorem sectionsList_mem_intro (soup : List Node) (p : Node × List Node)
    (hp : p ∈ elemsWithSiblings soup)
    (htag : isSectionTagged p.1 = true)
    (hmark : anySectionMarker (getTextStrip [] p.1) = true)
    (hbody : extract_section_content p.2 ≠ []) :
    (getTextStrip [] p.1, extract_section_content p.2) ∈ sectionsList soup := by
  unfold sectionsList
  rw [List.mem_filterMap]
  refine ⟨p, hp, ?_⟩
  rw [if_pos ⟨htag, hmark⟩, if_pos hbody]

/-- C5 (amended): body collection appends at most 10 sibling texts; a
sibling whose text matches `Sec. <n>.` or `Section <n>` (a strict subset of
the four marker patterns used to find headers) stops the loop, but its own
text is appended first whenever it exceeds 20 characters and the cap is not
reached; a subsection record is emitted iff the collected body text is
non-empty. -/
theorem claim_C5_amended :
    (∀ sibs : List Node, (escLoop sibs []).length ≤ 10) ∧
    (∀ (n : Node) (rest rest' : List Node) (acc : List (List Char)),
        searchStop (getTextStrip [] n) = true →
        escLoop (n :: rest) acc = escLoop (n :: rest') acc) ∧
    (∀ (n : Node) (rest : List Node) (acc : List (List Char)),
        searchStop (getTextStrip [] n) = true → acc.length < 10 →
        20 < (getTextStrip [] n).length →
        escLoop (n :: rest) acc = acc ++ [getTextStrip [] n]) ∧
    (∀ soup : List Node, ∀ e ∈ (extract_sections soup).getD [], e.2 ≠ []) ∧
    (∀ (soup : List Node) (p : Node × List Node), p ∈ elemsWithSiblings soup →
        isSectionTagged p.1 = true →
        anySectionMarker (getTextStrip [] p.1) = true →
        extract_section_content p.2 ≠ [] →
        ∃ l, extract_sections soup = some l ∧
          (getTextStrip [] p.1, extract_section_content p.2) ∈ l) := by
  refine ⟨fun sibs => escLoop_length_le sibs [] (by simp), ?_, ?_, ?_, ?_⟩
  · intro n rest rest' acc hstop
    simp only [escLoop, hstop]
    by_cases hcap : 10 ≤ acc.length
    · rw [if_pos hcap, if_pos hcap]
    · rw [if_neg hcap, if_neg hcap]
      by_cases hbig : getTextStrip [] n ≠ [] ∧ 20 < (getTextStrip [] n).length
      · rw [if_pos hbig, if_pos hbig]
        simp
      · rw [if_neg hbig, if_neg hbig]
        simp
  · intro n rest acc hstop hcap hlen
    simp only [escLoop, hstop]
    rw [if_neg (Nat.not_le.mpr hcap)]
    have hbig : getTextStrip [] n ≠ [] ∧ 20 < (getTextStrip [] n).length := by
      refine ⟨?_, hlen⟩
      intro h0
      rw [h0] at hlen
      simp at hlen
    rw [if_pos hbig]
    simp
  · intro soup e he
    unfold extract_sections at he
    by_cases hE : (sectionsList soup).isEmpty
    · rw [if_pos hE] at he
      simp at he
    · rw [if_neg hE] at he
      simp only [Option.getD_some] at he
      unfold sectionsList at he
      rw [List.mem_filterMap] at he
      obtain ⟨p, _, hfe⟩ := he
      by_cases hcond : isSectionTagged p.1 = true ∧
          anySectionMarker (getTextStrip [] p.1) = true
      · rw [if_pos hcond] at hfe
        by_cases hbody : extract_section_content p.2 ≠ []
        · rw [if_pos hbody] at hfe
          rw [← Option.some_inj.mp hfe]
          exact hbody
        · rw [if_neg hbody] at hfe
          simp at hfe
      · rw [if_neg hcond] at hfe
        simp at hfe
  · intro soup p hp htag hmark hbody
    have hmem := sectionsList_mem_intro soup p hp htag hmark hbody
    have hne : (sectionsList soup).isEmpty = false := by
      rw [List.isEmpty_eq_false]
      intro h0
      rw [h0] at hmem
      exact List.not_mem_nil _ hmem
    refine ⟨sectionsList soup, ?_, hmem⟩
    unfold extract_sections
    rw [hne]
    simp

/-! ## C5: concrete nodes for the counterexample and witness -/

/-- A sibling paragraph that itself matches the `Sec. <n>.` pattern. -/
def pSec182 : Node :=
  Node.elem ("p".data) [] none
    [Node.text ("Sec. 18-2. Cats must also be leashed properly.".data)]

/-- A sibling paragraph matching only the bare `<n>-<n>` marker pattern. -/
def pCross : Node :=
  Node.elem ("p".data) [] none
    [Node.text ("Cross reference 18-2 applies in all cases.".data)]

/-- A plain sibling paragraph. -/
def pAfter : Node :=
  Node.elem ("p".data) [] none
    [Node.text ("Additional body text continues afterwards.".data)]

/-- Counterexample to C5 as stated: a sibling whose text matches a
section-marker pattern is *included* in the collected body before the loop
stops (the claim says collection stops before including it), and a sibling
matching only the `<n>-<n>` marker pattern does not stop collection at all
(the claim says the stop test uses the same marker patterns as header
discovery). -/
theorem claim_C5_counterexample :
    anySectionMarker (getTextStrip [] pSec182) = true ∧
    extract_section_content [pSec182] =
      ("Sec. 18-2. Cats must also be leashed properly.".data) ∧
    anySectionMarker (getTextStrip [] pCross) = true ∧
    searchStop (getTextStrip [] pCross) = false ∧
    extract_section_content [pCross, pAfter] =
      (("Cross reference 18-2 applies in all cases.".data) ++ ("\n\n".data) ++
        ("Additional body text continues afterwards.".data)) :=
  ⟨by decide, by decide, by decide, by decide, by decide⟩

/-- Witness for the amended C5 at a concrete sibling chain. -/
theorem claim_C5_amended_witness :
    searchStop (getTextStrip [] pSec182) = true ∧
    20 < (getTextStrip [] pSec182).length ∧
    escLoop [pSec182, pAfter] [] = [getTextStrip [] pSec182] := by
  refine ⟨by decide, by decide, ?_⟩
  have h := claim_C5_amended.2.2.1 pSec182 [pAfter] [] (by decide) (by decide)
    (by decide)
  simpa using h

/-! ## C7: failure accumulation in the orchestrator -/

theorem scrapeLoop_partition (fetch : List Char → Option ContentData)
    (ts : List ScrapeTarget) :
    (scrapeLoop fetch ts).1.map (fun r => r.url) =
      (ts.filter (fun t => !(isFailTarget fetch t))).map (fun t => t.url) ∧
    (scrapeLoop fetch ts).2 =
      (ts.filter (isFailTarget fetch)).map (fun t => t.url) := by
  induction ts with
  | nil => exact ⟨rfl, rfl⟩
  | cons t rest ih =>
    simp only [scrapeLoop, List.filter_cons]
    cases hf : fetch t.url with
    | some cd =>
      dsimp only
      by_cases hc : cd.content = []
      · have hfail : isFailTarget fetch t = true := by
          simp [isFailTarget, hf, hc]
        rw [if_neg (not_not_intro hc), hfail]
        refine ⟨?_, ?_⟩
        · simpa using ih.1
        · simpa using ih.2
      · have hfail : isFailTarget fetch t = false := by
          simp only [isFailTarget, hf, List.isEmpty_eq_false]
          exact hc
        rw [if_pos hc, hfail]
        refine ⟨?_, ?_⟩
        · simp only [List.map_cons, Bool.not_false, if_true]
          exact congrArg (List.cons t.url) ih.1
        · simpa using ih.2
    | none =>
      dsimp only
      have hfail : isFailTarget fetch t = true := by
        simp [isFailTarget, hf]
      rw [hfail]
      refine ⟨?_, ?_⟩
      · simpa using ih.1
      · simpa using ih.2

theorem scrapeLoop_total (fetch : List Char → Option ContentData)
    (ts : List ScrapeTarget) :
    (scrapeLoop fetch ts).1.length + (scrapeLoop fetch ts).2.length =
      ts.length := by
  induction ts with
  | nil => rfl
  | cons t rest ih =>
    simp only [scrapeLoop]
    cases hf : fetch t.url with
    | some cd =>
      dsimp only
      by_cases hc : cd.content ≠ []
      · rw [if_pos hc]
        simp only [List.length_cons]
        omega
      · rw [if_neg hc]
        simp only [List.length_cons]
        omega
    | none =>
      dsimp only
      simp only [List.length_cons]
      omega

/-- C7: for a run over n targets of which exactly k fail (fetch failure or
empty content), the failure list has exactly k entries and the record list
exactly n − k, regardless of where the failures occur; moreover every URL
lands in exactly one of the two lists, in input order. -/
theorem claim_C7_failure_accumulation (fetch : List Char → Option ContentData)
    (ts : List ScrapeTarget) (k : Nat)
    (h : ts.countP (isFailTarget fetch) = k) :
    (scrapeLoop fetch ts).2.length = k ∧
    (scrapeLoop fetch ts).1.length = ts.length - k ∧
    (scrapeLoop fetch ts).1.length + (scrapeLoop fetch ts).2.length =
      ts.length ∧
    (scrapeLoop fetch ts).1.map (fun r => r.url) =
      (ts.filter (fun t => !(isFailTarget fetch t))).map (fun t => t.url) ∧
    (scrapeLoop fetch ts).2 =
      (ts.filter (isFailTarget fetch)).map (fun t => t.url) := by
  obtain ⟨h1, h2⟩ := scrapeLoop_partition fetch ts
  have htot := scrapeLoop_total fetch ts
  have hlen2 : (scrapeLoop fetch ts).2.length = k := by
    rw [h2, List.length_map, ← List.countP_eq_length_filter]
    exact h
  exact ⟨hlen2, by omega, htot, h1, h2⟩

/-- Page data used by the C7 witness for the successful targets. -/
def cdStub : ContentData :=
  ⟨("A title".data), ("Some content".data), none, ("N1".data), ("u1".data)⟩

/-- A fetch oracle failing exactly on `u2`. -/
def fetchW : List Char → Option ContentData :=
  fun u => if u = ("u2".data) then none else some cdStub

/-- Three scrape targets, of which exactly one fails under `fetchW`. -/
def tsW : List ScrapeTarget :=
  [⟨("u1".data), ("Chapter 18 - ANIMALS".data), ("N1".data)⟩,
   ⟨("u2".data), ("Chapter 42 - ENVIRONMENT".data), ("N2".data)⟩,
   ⟨("u3".data), ("PART I - RELATED LAWS".data), ("N3".data)⟩]

/-- Witness for C7: 1 of 3 targets fails, so the failure list has exactly
one entry and the record list exactly two. -/
theorem claim_C7_failure_accumulation_witness :
    tsW.countP (isFailTarget fetchW) = 1 ∧
    (scrapeLoop fetchW tsW).2.length = 1 ∧
    (scrapeLoop fetchW tsW).1.length = tsW.length - 1 :=
  ⟨by decide,
   (claim_C7_failure_accumulation fetchW tsW 1 (by decide)).1,
   (claim_C7_failure_accumulation fetchW tsW 1 (by decide)).2.1⟩

/-! ## C9: subsections are never an empty list -/

/-- C9: `extract_sections` returns `None` or a non-empty list, never an
empty list; the orchestrator stores this result unchanged in the record's
`subsections` field; hence every record's `subsections` is `None` or a
non-empty list. -/
theorem claim_C9_subsections_never_empty :
    (∀ soup : List Node, extract_sections soup = none ∨
        ∃ l, extract_sections soup = some l ∧ l ≠ []) ∧
    (∀ (t : ScrapeTarget) (cd : ContentData),
        (mkOrdinance t cd).subsections = cd.sections) ∧
    (∀ (pages : List Char → List Node) (ts : List ScrapeTarget),
        ∀ r ∈ (scrapeLoop
            (fun u => some (extract_content_from_page (pages u) u)) ts).1,
          r.subsections = none ∨ ∃ l, r.subsections = some l ∧ l ≠ []) := by
  have h1 : ∀ soup : List Node, extract_sections soup = none ∨
      ∃ l, extract_sections soup = some l ∧ l ≠ [] := by
    intro soup
    unfold extract_sections
    by_cases hE : (sectionsList soup).isEmpty
    · rw [if_pos hE]
      exact Or.inl rfl
    · rw [if_neg hE]
      exact Or.inr ⟨sectionsList soup, rfl,
        fun h0 => hE (by rw [h0]; rfl)⟩
  refine ⟨h1, fun t cd => rfl, ?_⟩
  intro pages ts
  induction ts with
  | nil => intro r hr; simp [scrapeLoop] at hr
  | cons t rest ih =>
    intro r hr
    simp only [scrapeLoop] at hr
    by_cases hc : (extract_content_from_page (pages t.url) t.url).content ≠ []
    · rw [if_pos hc] at hr
      rcases List.mem_cons.mp hr with heq | hr'
      · rw [heq]
        show (extract_content_from_page (pages t.url) t.url).sections = none ∨ _
        exact h1 (decomposeTags badTags (pages t.url))
      · exact ih r hr'
    · rw [if_neg hc] at hr
      exact ih r hr

/-- A content container long enough to pass the 100-character threshold
and containing no section markers. -/
def richDiv : Node :=
  Node.elem ("div".data) [("content".data)] none
    [Node.text ("This page body is deliberately made long enough to pass the one hundred character substantiality threshold used by the extractor.".data)]

/-- A page oracle serving `richDiv` for every URL. -/
def pagesW : List Char → List Node := fun _ => [richDiv]

/-- The single target of the C9 witness. -/
def tW9 : ScrapeTarget :=
  ⟨("u9".data), ("Chapter 18 - ANIMALS".data), ("N9".data)⟩

/-- Witness for C9: a concrete scraped record whose subsections field is
`None` (the page has no section markers), obtained through the loop. -/
theorem claim_C9_subsections_never_empty_witness :
    (mkOrdinance tW9
        (extract_content_from_page (pagesW tW9.url) tW9.url)).subsections =
      none ∨
    ∃ l, (mkOrdinance tW9
        (extract_content_from_page (pagesW tW9.url) tW9.url)).subsections =
      some l ∧ l ≠ [] :=
  claim_C9_subsections_never_empty.2.2 pagesW [tW9] _ (by decide)

/-! ## C1: the end-to-end HTML fragment scenario -/

/-- `<p>Sec. 18-1. Dogs must be leashed in public parks.</p>`. -/
def pLeash : Node :=
  Node.elem ("p".data) [] none
    [Node.text ("Sec. 18-1. Dogs must be leashed in public parks.".data)]

/-- `<p>Violation is a misdemeanor.</p>`. -/
def pViolation : Node :=
  Node.elem ("p".data) [] none
    [Node.text ("Violation is a misdemeanor.".data)]

/-- The HTML fragment of claim C1:
`<div class="content"><p>Sec. 18-1. ...</p><p>Violation ...</p></div>`. -/
def fragmentC1 : List Node :=
  [Node.elem ("div".data) [("content".data)] none [pLeash, pViolation]]

/-- A URL carrying a `nodeId` query parameter. -/
def urlC1 : List Char :=
  ("https://library.municode.com/ga/rockdale_county/codes/code_of_ordinances?nodeId=SPAGEOR_CH18AN".data)

/-- Counterexample to C1 as stated: on the given fragment the extractor's
`content` field is the empty string — the `.content` container text (76
characters) is below the 100-character substantiality threshold and each
paragraph (48 and 27 characters) is below the 50-character fallback
threshold — so `content` does not include "Sec. 18-1". -/
theorem claim_C1_counterexample :
    (extract_content_from_page fragmentC1 urlC1).content = [] ∧
    ¬(("Sec. 18-1".data) <:+:
        (extract_content_from_page fragmentC1 urlC1).content) :=
  ⟨by decide, by decide⟩

/-- C1 (amended): on the given fragment and URL, the extractor's `content`
field is empty (the fragment's text falls below the substantiality
thresholds); the subsections list contains exactly one entry, titled
"Sec. 18-1. Dogs must be leashed in public parks." (which starts with
"Sec. 18-1") with body "Violation is a misdemeanor."; and `node_id` equals
the URL's `nodeId` parameter value. -/
theorem claim_C1_amended :
    (extract_content_from_page fragmentC1 urlC1).content = [] ∧
    (extract_content_from_page fragmentC1 urlC1).sections =
      some [(("Sec. 18-1. Dogs must be leashed in public parks.".data),
             ("Violation is a misdemeanor.".data))] ∧
    (("Sec. 18-1".data) <+:
        ("Sec. 18-1. Dogs must be leashed in public parks.".data)) ∧
    (extract_content_from_page fragmentC1 urlC1).node_id =
      ("SPAGEOR_CH18AN".data) :=
  ⟨by decide, by decide, by decide, by decide⟩
